import Mathlib

/-!
Verification of the chess-tactics-hub analysis core against its specification.

This file gives a shallow embedding, in Lean 4, of the code under `src/`:

* the static evaluator `evaluatePosition` and its helpers
  (`src/src/components/InteractiveBoard.tsx`, evaluation module);
* the minimax search with move ordering `orderMoves` / `minimax` /
  `findBestLine` and the capture-only `quiescenceSearch`
  (`src/src/lib/tacticsGenerator.ts`, search module);
* the depth clamp performed by the analysis worker
  (`src/src/lib/chessWorker.ts`);
* the `WorkerPool` state machine (`src/src/lib/workerPool.ts`);
* the tactic-extraction pipeline `generateTactics`
  (`src/src/lib/tacticsGenerator.ts`).

The chess rules engine (`chess.js`) is an external, trusted library from the
point of view of the analysed code; it is modelled abstractly: a `Position`
is a record of exactly the observations the evaluator makes of the rules
engine, and the game tree searched by `minimax` is an abstract tree whose
nodes carry the observations (`eval`, `inCheck`, `gameOver`, legal moves)
that the search code reads.  JavaScript numbers appearing in the code are
integers (centipawn scores, counts, depths) except for the `±Infinity`
search bounds, which are modelled by the three-valued `Score` type, and the
progress percentages, which are modelled by `ℚ`.
-/

namespace CTH

/-! ## Scores with infinities

`minimax` is seeded with JavaScript `-Infinity` / `Infinity` bounds and the
loop compares scores with `<`, `>`, `Math.max`, `Math.min`.  `Score` models
a JavaScript number that is either a finite integer score or one of the two
infinities. -/

/-- A search score: `-Infinity`, a finite (integer) centipawn value, or
`Infinity`, as used by the alpha-beta bounds in `minimax`. -/
inductive Score where
  | negInf
  | val (n : ℤ)
  | posInf
deriving DecidableEq

/-- Boolean comparison `a ≤ b` on scores, mirroring JavaScript numeric
comparison with infinities. -/
def Score.ble : Score → Score → Bool
  | .negInf, _ => true
  | _, .posInf => true
  | .posInf, _ => false
  | .val _, .negInf => false
  | .val m, .val n => decide (m ≤ n)

instance : LE Score := ⟨fun a b => Score.ble a b = true⟩

instance : LT Score := ⟨fun a b => a ≤ b ∧ ¬ b ≤ a⟩

instance Score.decLE : ∀ a b : Score, Decidable (a ≤ b) := fun _ _ =>
  inferInstanceAs (Decidable (_ = true))

instance Score.decLT : ∀ a b : Score, Decidable (a < b) := fun _ _ =>
  inferInstanceAs (Decidable (_ ∧ _))

lemma Score.le_def {a b : Score} : a ≤ b ↔ Score.ble a b = true := Iff.rfl

instance : LinearOrder Score where
  le_refl a := by cases a <;> simp [Score.le_def, Score.ble]
  le_trans a b c := by
    cases a <;> cases b <;> cases c <;> simp [Score.le_def, Score.ble] <;> omega
  le_antisymm a b := by
    cases a <;> cases b <;> simp [Score.le_def, Score.ble] <;> omega
  le_total a b := by
    cases a <;> cases b <;> simp [Score.le_def, Score.ble] <;> omega
  lt_iff_le_not_le _ _ := Iff.rfl
  decidableLE := Score.decLE
  decidableLT := Score.decLT

@[simp] lemma Score.negInf_le (a : Score) : Score.negInf ≤ a := by
  cases a <;> simp [Score.le_def, Score.ble]

@[simp] lemma Score.le_posInf (a : Score) : a ≤ Score.posInf := by
  cases a <;> simp [Score.le_def, Score.ble]

lemma Score.le_negInf {a : Score} (h : a ≤ Score.negInf) : a = Score.negInf := by
  cases a <;> simp_all [Score.le_def, Score.ble]

lemma Score.posInf_le {a : Score} (h : Score.posInf ≤ a) : a = Score.posInf := by
  cases a <;> simp_all [Score.le_def, Score.ble]

lemma Score.negInf_lt_posInf : (Score.negInf : Score) < Score.posInf := by decide

/-! ## Pieces, colors, board

Observations of a `chess.js` position, as consumed by the evaluator in
`src/src/components/InteractiveBoard.tsx` (evaluation module): the 8×8
board of `chess.board()` (row index `rank`, column index `file`, exactly as
the code's nested `forEach` visits it), the side to move, the terminal
flags, the in-check flag and the legal-move count. -/

/-- Piece kinds, `chess.js` letters `p n b r q k`. -/
inductive PieceType where
  | p | n | b | r | q | k
deriving DecidableEq

/-- Piece colors, `chess.js` letters `w b`. -/
inductive PColor where
  | w | b
deriving DecidableEq

/-- A board square occupant: `{ type, color }` as returned by
`chess.board()`. -/
structure Piece where
  type : PieceType
  color : PColor
deriving DecidableEq

/-- The board with the indexing used by the evaluator's scan: first index
is the row of `chess.board()`, second the column. -/
def Board : Type := Fin 8 → Fin 8 → Option Piece

/-- Material values (evaluation module, `pieceValues`). -/
def pieceValues : PieceType → ℤ
  | .p => 100
  | .n => 320
  | .b => 330
  | .r => 500
  | .q => 900
  | .k => 20000

/-- `pawnTable` (evaluation module). -/
def pawnTable : List ℤ :=
  [0,  0,  0,  0,  0,  0,  0,  0,
   50, 50, 50, 50, 50, 50, 50, 50,
   10, 10, 20, 30, 30, 20, 10, 10,
   5,  5, 10, 25, 25, 10,  5,  5,
   0,  0,  0, 20, 20,  0,  0,  0,
   5, -5, -10, 0,  0, -10, -5, 5,
   5, 10, 10, -20, -20, 10, 10, 5,
   0,  0,  0,  0,  0,  0,  0,  0]

/-- `knightTable` (evaluation module). -/
def knightTable : List ℤ :=
  [-50, -40, -30, -30, -30, -30, -40, -50,
   -40, -20, 0, 0, 0, 0, -20, -40,
   -30, 0, 10, 15, 15, 10, 0, -30,
   -30, 5, 15, 20, 20, 15, 5, -30,
   -30, 0, 15, 20, 20, 15, 0, -30,
   -30, 5, 10, 15, 15, 10, 5, -30,
   -40, -20, 0, 5, 5, 0, -20, -40,
   -50, -40, -30, -30, -30, -30, -40, -50]

/-- `bishopTable` (evaluation module). -/
def bishopTable : List ℤ :=
  [-20, -10, -10, -10, -10, -10, -10, -20,
   -10, 0, 0, 0, 0, 0, 0, -10,
   -10, 0, 5, 10, 10, 5, 0, -10,
   -10, 5, 5, 10, 10, 5, 5, -10,
   -10, 0, 10, 10, 10, 10, 0, -10,
   -10, 10, 10, 10, 10, 10, 10, -10,
   -10, 5, 0, 0, 0, 0, 5, -10,
   -20, -10, -10, -10, -10, -10, -10, -20]

/-- `rookTable` (evaluation module). -/
def rookTable : List ℤ :=
  [0, 0, 0, 0, 0, 0, 0, 0,
   5, 10, 10, 10, 10, 10, 10, 5,
   -5, 0, 0, 0, 0, 0, 0, -5,
   -5, 0, 0, 0, 0, 0, 0, -5,
   -5, 0, 0, 0, 0, 0, 0, -5,
   -5, 0, 0, 0, 0, 0, 0, -5,
   -5, 0, 0, 0, 0, 0, 0, -5,
   0, 0, 0, 5, 5, 0, 0, 0]

/-- `queenTable` (evaluation module). -/
def queenTable : List ℤ :=
  [-20, -10, -10, -5, -5, -10, -10, -20,
   -10, 0, 0, 0, 0, 0, 0, -10,
   -10, 0, 5, 5, 5, 5, 0, -10,
   -5, 0, 5, 5, 5, 5, 0, -5,
   0, 0, 5, 5, 5, 5, 0, -5,
   -10, 5, 5, 5, 5, 5, 0, -10,
   -10, 0, 5, 0, 0, 0, 0, -10,
   -20, -10, -10, -5, -5, -10, -10, -20]

/-- `kingMiddleGameTable` (evaluation module). -/
def kingMiddleGameTable : List ℤ :=
  [-30, -40, -40, -50, -50, -40, -40, -30,
   -30, -40, -40, -50, -50, -40, -40, -30,
   -30, -40, -40, -50, -50, -40, -40, -30,
   -30, -40, -40, -50, -50, -40, -40, -30,
   -20, -30, -30, -40, -40, -30, -30, -20,
   -10, -20, -20, -20, -20, -20, -20, -10,
   20, 20, 0, 0, 0, 0, 20, 20,
   20, 30, 10, 0, 0, 10, 30, 20]

/-- `pieceSquareTables` (evaluation module): one table per piece kind. -/
def pieceSquareTables : PieceType → List ℤ
  | .p => pawnTable
  | .n => knightTable
  | .b => bishopTable
  | .r => rookTable
  | .q => queenTable
  | .k => kingMiddleGameTable

/-- A `chess.js` position as observed by the evaluator.  The rules engine
is external; the evaluator only reads these fields of it. -/
structure Position where
  board : Board
  turn : PColor
  isCheckmate : Bool
  isDraw : Bool
  isStalemate : Bool
  isThreefoldRepetition : Bool
  inCheck : Bool
  movesCount : ℕ

/-- `getSquareIndex` (evaluation module, lines 228-233).  The source takes
the square's algebraic name and re-extracts `file = letter - 'a'` and
`rank = digit - 1`; the evaluator always calls it on the name it just built
from the scan indices, with `digit = row + 1`, so here `rank` is the row
index and `file` the column index of the scan. -/
def getSquareIndex (rank file : Fin 8) (color : PColor) : ℕ :=
  if color = .w then (7 - (rank : ℕ)) * 8 + (file : ℕ) else (rank : ℕ) * 8 + (file : ℕ)

/-- Contribution of one board square to the material-and-placement scan of
`evaluatePosition` (evaluation module, lines 248-266): material value plus
piece-square-table bonus, signed by color. -/
def squareScore (rank file : Fin 8) (sq : Option Piece) : ℤ :=
  match sq with
  | none => 0
  | some pc =>
    let idx := getSquareIndex rank file pc.color
    let value := pieceValues pc.type + (pieceSquareTables pc.type).getD idx 0
    if pc.color = .w then value else -value

/-- The double `forEach` board scan of `evaluatePosition`, summing
`squareScore` over all 64 squares (addition is order-independent). -/
def materialPositional (b : Board) : ℤ :=
  ∑ rank : Fin 8, ∑ file : Fin 8, squareScore rank file (b rank file)

/-- Number of pawns of color `c` on column `file`, as counted by the inner
loop of `evaluatePawnStructure`. -/
def filePawnCount (b : Board) (c : PColor) (file : Fin 8) : ℕ :=
  (Finset.univ.filter fun rank : Fin 8 => b rank file = some ⟨.p, c⟩).card

/-- `evaluatePawnStructure` (evaluation module, lines 284-307): linear
penalty per extra same-file pawn beyond the first, per color. -/
def evaluatePawnStructure (b : Board) : ℤ :=
  ∑ file : Fin 8,
    ((if 1 < filePawnCount b .w file then -(((filePawnCount b .w file : ℤ) - 1) * 20) else 0)
      + (if 1 < filePawnCount b .b file then ((filePawnCount b .b file : ℤ) - 1) * 20 else 0))

/-- `evaluatePosition` (evaluation module, lines 235-282): terminal checks
first (checkmate `±30000` signed by the side to move, then any draw `0`),
otherwise material+placement scan, mobility bonus for the side to move,
in-check penalty, and pawn structure. -/
def evaluatePosition (pos : Position) : ℤ :=
  if pos.isCheckmate then (if pos.turn = .w then -30000 else 30000)
  else if pos.isDraw || pos.isStalemate || pos.isThreefoldRepetition then 0
  else
    materialPositional pos.board
      + (if pos.turn = .w then (pos.movesCount : ℤ) * 10 else -((pos.movesCount : ℤ) * 10))
      + (if pos.inCheck then (if pos.turn = .w then -200 else 200) else 0)
      + evaluatePawnStructure pos.board

/-- The other piece color. -/
def swapColor : PColor → PColor
  | .w => .b
  | .b => .w

/-- Same piece, opposite color. -/
def mirrorPiece (pc : Piece) : Piece := ⟨pc.type, swapColor pc.color⟩

/-- The color-reversed mirror of a position: the board reflected across the
rank axis with every piece's color swapped, the side to move swapped.  The
rules-engine observations (checkmate, draw flags, check, legal-move count)
are preserved, which is how the external rules engine behaves on a
color-mirrored position by the left-right/color symmetry of the rules of
chess. -/
def mirrorPosition (pos : Position) : Position where
  board := fun rank file => (pos.board rank.rev file).map mirrorPiece
  turn := swapColor pos.turn
  isCheckmate := pos.isCheckmate
  isDraw := pos.isDraw
  isStalemate := pos.isStalemate
  isThreefoldRepetition := pos.isThreefoldRepetition
  inCheck := pos.inCheck
  movesCount := pos.movesCount

/-! ## Worker depth clamp (`src/src/lib/chessWorker.ts`) -/

/-- The depth clamp of the worker's `analyze` handler
(`src/src/lib/chessWorker.ts`, line 173):
`const safeDepth = Math.min(Math.max(depth, 10), 18)`. -/
def safeDepth (depth : ℤ) : ℤ :=
  min (max depth 10) 18

/-- The depth the worker actually passes to the engine's `go depth` command
for a requested depth (`chessWorker.ts`, lines 166-186 and 132-149): the
clamped depth is stored with the queued analysis and then sent verbatim. -/
def engineSearchDepth (requested : ℤ) : ℤ :=
  safeDepth requested

/-- The depth at which the pipeline submits every candidate position to the
pool (`src/src/components/InteractiveBoard.tsx`, pipeline module, line 401:
`workerPool.analyze(pos.fenBefore, 4)`). -/
def pipelineSubmittedDepth : ℤ := 4

/-! ## The game tree searched by `minimax`
(`src/src/lib/tacticsGenerator.ts`, search module, lines 165-296)

The search calls the external rules engine for `moves({verbose:true})`,
`move`/`undo`, `isGameOver`, `inCheck` and the evaluator for static scores.
A `GTree` node packages exactly those observations: the static evaluation
of the position, whether the side to move is in check, whether the game is
over, and the legal moves, each paired with the subtree for the position
after that move.  A `GMove` carries the move metadata the search code
reads. -/

/-- A verbose `chess.js` move as read by `orderMoves` and the pipeline:
SAN text, moving piece, captured piece (if any), promotion piece (if any)
and destination square. -/
structure GMove where
  san : String
  piece : PieceType
  captured : Option PieceType
  promotion : Option PieceType
  toSquare : String
deriving DecidableEq

/-- Abstract game tree: static evaluation at this node, in-check flag for
the side to move at this node, game-over flag, and the legal moves with
their subtrees. -/
inductive GTree where
  | node (eval : ℤ) (inCheck : Bool) (gameOver : Bool) (moves : List (GMove × GTree))

/-- Static evaluation of the node's position (`evaluatePosition(chess)`). -/
def GTree.eval : GTree → ℤ
  | .node e _ _ _ => e

/-- Whether the side to move at this node is in check (`chess.inCheck()`). -/
def GTree.inCheck : GTree → Bool
  | .node _ c _ _ => c

/-- Whether the game is over at this node (`chess.isGameOver()`). -/
def GTree.gameOver : GTree → Bool
  | .node _ _ g _ => g

/-- The legal moves at this node (`chess.moves({verbose:true})`), in the
rules engine's enumeration order, paired with their subtrees. -/
def GTree.moves : GTree → List (GMove × GTree)
  | .node _ _ _ ms => ms

/-- The ordering heuristic of `orderMoves` (search module, lines 172-199):
MVV-LVA for captures, `+1000` if the move gives check (the code plays the
move and asks `chess.inCheck()`, i.e. reads the child node), promotion
piece value, `+50` for a central destination.  The search module's
`pieceValues` table has the same entries as the evaluator's, so it is
shared here. -/
def moveScore (m : GMove) (child : GTree) : ℤ :=
  (match m.captured with
    | some cap => pieceValues cap * 10 - pieceValues m.piece
    | none => 0)
  + (if child.inCheck then 1000 else 0)
  + (match m.promotion with
    | some pr => pieceValues pr
    | none => 0)
  + (if m.toSquare ∈ (["e4", "e5", "d4", "d5"] : List String) then 50 else 0)

/-- One step of a stable descending insertion by `moveScore`. -/
def insertByScore (x : GMove × GTree) : List (GMove × GTree) → List (GMove × GTree)
  | [] => [x]
  | y :: ys =>
    if moveScore y.1 y.2 ≤ moveScore x.1 x.2 then x :: y :: ys
    else y :: insertByScore x ys

/-- `orderMoves` (search module, lines 172-202): stable sort of the move
list by descending heuristic score.  JavaScript's `Array.prototype.sort`
is stable, and a stable sort by a fixed key has a unique result, so this
insertion sort computes exactly the source's ordering. -/
def orderMoves (l : List (GMove × GTree)) : List (GMove × GTree) :=
  l.foldr insertByScore []

/-- The `for` loop inside `minimax` (search module, lines 232-262),
abstracted over the recursive call `f`: update the best line (strict
improvement only), update `alpha` (max node) or `beta` (min node), and
break when `beta ≤ alpha`. -/
def mmLoop (isMax : Bool) (f : GTree → Score → Score → List GMove → List GMove × Score) :
    List (GMove × GTree) → Score → Score → List GMove → List GMove × Score → List GMove × Score
  | [], _, _, _, best => best
  | (m, c) :: rest, alpha, beta, line, best =>
    let r := f c alpha beta (line ++ [m])
    if isMax then
      let best' := if best.2 < r.2 then r else best
      let alpha' := max alpha r.2
      if beta ≤ alpha' then best' else mmLoop isMax f rest alpha' beta line best'
    else
      let best' := if r.2 < best.2 then r else best
      let beta' := min beta r.2
      if beta' ≤ alpha then best' else mmLoop isMax f rest alpha beta' line best'

/-- `minimax` (search module, lines 209-265).  `wo` selects whether the
move list is passed through `orderMoves` (the source always does; `wo =
false` is the comparison run of claim C2 that searches the moves in the
rules engine's original enumeration order).  At depth `> 6` the loop only
visits the first `min 20 _` entries of the (ordered) move list
(`searchWidth`, line 230). -/
def minimax (wo : Bool) (d : ℕ) (t : GTree) (alpha beta : Score) (isMax : Bool)
    (line : List GMove) : List GMove × Score :=
  match d with
  | 0 => (line, Score.val t.eval)
  | d' + 1 =>
    if t.gameOver then (line, Score.val t.eval)
    else
      let ordered := if wo then orderMoves t.moves else t.moves
      let width := if 6 < d' + 1 then min 20 ordered.length else ordered.length
      mmLoop isMax (fun c a b l => minimax wo d' c a b (!isMax) l) (ordered.take width)
        alpha beta line (line, if isMax then Score.negInf else Score.posInf)
termination_by structural d

/-- `findBestLine` (search module, lines 204-207): root call of `minimax`
with the full window, maximizing exactly when white is to move. -/
def findBestLine (t : GTree) (whiteToMove : Bool) (d : ℕ) : List GMove × Score :=
  minimax true d t .negInf .posInf whiteToMove []

/-- Fold of `max` over a list of scores, seeded with `-Infinity`. -/
def listValMax (vals : List Score) : Score := vals.foldr max Score.negInf

/-- Fold of `min` over a list of scores, seeded with `Infinity`. -/
def listValMin (vals : List Score) : Score := vals.foldr min Score.posInf

/-- The plain minimax value of a tree at a given depth: the reference
value (no pruning, no ordering, no width cap) that alpha-beta search
computes when its window never cuts. -/
def mmVal (d : ℕ) (t : GTree) (isMax : Bool) : Score :=
  match d with
  | 0 => .val t.eval
  | d' + 1 =>
    if t.gameOver then .val t.eval
    else
      let vals := t.moves.map fun mc => mmVal d' mc.2 (!isMax)
      if isMax then listValMax vals else listValMin vals
termination_by structural d

/-- Instrumented companion of `mmLoop` counting the `minimax` invocations
made on the children it visits; the `alpha`/`beta`/`best` bookkeeping is
replicated verbatim so the loop breaks at exactly the same point. -/
def cntLoop (isMax : Bool) (f : GTree → Score → Score → List GMove → List GMove × Score)
    (g : GTree → Score → Score → List GMove → ℕ) :
    List (GMove × GTree) → Score → Score → List GMove → List GMove × Score → ℕ
  | [], _, _, _, _ => 0
  | (m, c) :: rest, alpha, beta, line, best =>
    let r := f c alpha beta (line ++ [m])
    let n := g c alpha beta (line ++ [m])
    if isMax then
      let best' := if best.2 < r.2 then r else best
      let alpha' := max alpha r.2
      if beta ≤ alpha' then n else n + cntLoop isMax f g rest alpha' beta line best'
    else
      let best' := if r.2 < best.2 then r else best
      let beta' := min beta r.2
      if beta' ≤ alpha then n else n + cntLoop isMax f g rest alpha beta' line best'

/-- Number of `minimax` invocations (nodes visited) performed by
`minimax wo d t alpha beta isMax line`.  The source maintains no such
counter; this instrumentation exists to state claim C3. -/
def countNodes (wo : Bool) (d : ℕ) (t : GTree) (alpha beta : Score) (isMax : Bool)
    (line : List GMove) : ℕ :=
  match d with
  | 0 => 1
  | d' + 1 =>
    if t.gameOver then 1
    else
      let ordered := if wo then orderMoves t.moves else t.moves
      let width := if 6 < d' + 1 then min 20 ordered.length else ordered.length
      1 + cntLoop isMax (fun c a b l => minimax wo d' c a b (!isMax) l)
          (fun c a b l => countNodes wo d' c a b (!isMax) l)
          (ordered.take width) alpha beta line (line, if isMax then Score.negInf else Score.posInf)
termination_by structural d

/-! ## Quiescence search (search module, lines 268-296) -/

mutual

/-- `quiescenceSearch` (search module, lines 268-296): stand-pat cutoff
against `beta`, raise `alpha` to the standing evaluation, then negamax
over the capture moves only, ordered by `orderMoves`. -/
def quiescenceSearch (t : GTree) (alpha beta : ℤ) : ℤ :=
  let standPat := t.eval
  if beta ≤ standPat then beta
  else
    let alpha' := if alpha < standPat then standPat else alpha
    qsLoop (orderMoves (t.moves.filter fun mc => mc.1.captured.isSome)) alpha' beta
termination_by (sizeOf t, 0)
decreasing_by
  have hins : ∀ (x : GMove × GTree) (l : List (GMove × GTree)),
      sizeOf (insertByScore x l) = 1 + sizeOf x + sizeOf l := by
    intro x l
    induction l with
    | nil => simp [insertByScore]
    | cons y ys ih =>
      simp only [insertByScore]
      split
      · simp
      · simp [ih]
        omega
  have hsort : ∀ l : List (GMove × GTree), sizeOf (orderMoves l) = sizeOf l := by
    intro l
    induction l with
    | nil => rfl
    | cons y ys ih => simp [orderMoves, List.foldr] at ih ⊢; rw [hins]; omega
  have hfilt : ∀ (p : GMove × GTree → Bool) (l : List (GMove × GTree)),
      sizeOf (l.filter p) ≤ sizeOf l := by
    intro p l
    induction l with
    | nil => simp
    | cons y ys ih =>
      rw [List.filter_cons]
      split
      · simp; omega
      · simp; omega
  obtain ⟨e, ic, go, ms⟩ := t
  simp only [GTree.moves]
  have h1 := hsort (ms.filter fun mc => mc.1.captured.isSome)
  have h2 := hfilt (fun mc => mc.1.captured.isSome) ms
  simp only [Prod.lex_def]
  left
  simp only [GTree.node.sizeOf_spec]
  omega

/-- The `for` loop of `quiescenceSearch` over the ordered captures:
cutoff returns `beta`, a better score raises `alpha`, otherwise continue;
when the captures are exhausted return `alpha`. -/
def qsLoop (l : List (GMove × GTree)) (alpha beta : ℤ) : ℤ :=
  match l with
  | [] => alpha
  | (m, c) :: rest =>
    let score := -(quiescenceSearch c (-beta) (-alpha))
    if beta ≤ score then beta
    else if alpha < score then qsLoop rest score beta
    else qsLoop rest alpha beta
termination_by (sizeOf l, 1)
decreasing_by
  all_goals simp only [Prod.lex_def]
  all_goals left
  all_goals simp
  all_goals omega

end

/-- The list of top-level moves `quiescenceSearch t alpha beta` recurses
into (in order): none on a stand-pat cutoff, otherwise the ordered
captures up to and including the first inner cutoff. -/
def qsRecursedLoop (l : List (GMove × GTree)) (alpha beta : ℤ) : List GMove :=
  match l with
  | [] => []
  | (m, c) :: rest =>
    let score := -(quiescenceSearch c (-beta) (-alpha))
    if beta ≤ score then [m]
    else if alpha < score then m :: qsRecursedLoop rest score beta
    else m :: qsRecursedLoop rest alpha beta

/-- Top-level moves recursed into by `quiescenceSearch`. -/
def qsRecursed (t : GTree) (alpha beta : ℤ) : List GMove :=
  let standPat := t.eval
  if beta ≤ standPat then []
  else
    let alpha' := if alpha < standPat then standPat else alpha
    qsRecursedLoop (orderMoves (t.moves.filter fun mc => mc.1.captured.isSome)) alpha' beta

/-! ## The worker pool (`src/src/lib/workerPool.ts`)

The pool is a state machine: `analyze` enqueues a task and creates a
promise, `processQueue` dispatches queued tasks to available workers,
worker `result`/`error` messages settle the matching promise, and
`terminate` clears everything.  Workers are interchangeable, so only their
count is tracked.  Each `analyze` call's promise is recorded, keyed by the
task id, so that the fate of every future returned to a caller can be
stated. -/

/-- The settlement state of a promise returned by `WorkerPool.analyze`. -/
inductive PStatus where
  | pending
  | resolved
  | rejected
deriving DecidableEq

/-- A queued analysis task (`taskQueue` entry). -/
structure PoolTask where
  fen : String
  depth : ℕ
  id : ℕ
deriving DecidableEq

/-- The `WorkerPool` instance state: worker count, available-worker count,
FIFO `taskQueue`, ids present in the `pendingTasks` map, the settlement
state of every promise ever created by `analyze` (keyed by task id), and
`nextTaskId`. -/
structure PoolState where
  workers : ℕ
  availableWorkers : ℕ
  taskQueue : List PoolTask
  pendingTasks : List ℕ
  promises : List (ℕ × PStatus)
  nextTaskId : ℕ
deriving DecidableEq

/-- The `while` loop of `processQueue` (workerPool.ts, lines 64-83):
repeatedly shift the oldest task and an available worker, moving the task
id into `pendingTasks`; returns the final queue, available count and
pending ids. -/
def dispatchLoop : List PoolTask → ℕ → List ℕ → List PoolTask × ℕ × List ℕ
  | [], a, pend => ([], a, pend)
  | t :: rest, 0, pend => (t :: rest, 0, pend)
  | t :: rest, a + 1, pend => dispatchLoop rest a (pend ++ [t.id])

/-- `processQueue` applied to a pool state. -/
def processQueue (s : PoolState) : PoolState :=
  let r := dispatchLoop s.taskQueue s.availableWorkers s.pendingTasks
  { s with taskQueue := r.1, availableWorkers := r.2.1, pendingTasks := r.2.2 }

/-- Settle the promise with key `id` (the map update performed when a
worker message finds `id` in `pendingTasks`). -/
def setPromise (l : List (ℕ × PStatus)) (id : ℕ) (st : PStatus) : List (ℕ × PStatus) :=
  l.map fun p => if p.1 = id then (id, st) else p

/-- Externally visible pool events: an `analyze` call, a worker `result`
or `error` message carrying a task id, `terminate`, `clearCache`. -/
inductive PoolEvent where
  | analyze (fen : String) (depth : ℕ)
  | result (id : ℕ)
  | error (id : ℕ)
  | terminate
  | clearCache
deriving DecidableEq

/-- One pool transition (workerPool.ts): `analyze` (lines 85-99) pushes a
task with a fresh id, records a pending promise and runs `processQueue`; a
worker `result`/`error` (lines 29-51) settles the promise if the id is
still in `pendingTasks`, removes it, returns the worker and runs
`processQueue`; `terminate` (lines 107-113) empties workers, queue and
`pendingTasks` map without settling any promise; `clearCache` (lines
101-105) only posts messages to workers. -/
def applyEvent (s : PoolState) : PoolEvent → PoolState
  | .analyze fen depth =>
    let id := s.nextTaskId
    processQueue { s with
      nextTaskId := id + 1
      taskQueue := s.taskQueue ++ [⟨fen, depth, id⟩]
      promises := s.promises ++ [(id, .pending)] }
  | .result id =>
    let s' :=
      if id ∈ s.pendingTasks then
        { s with pendingTasks := s.pendingTasks.erase id
                 promises := setPromise s.promises id .resolved }
      else s
    processQueue { s' with availableWorkers := s'.availableWorkers + 1 }
  | .error id =>
    let s' :=
      if id ∈ s.pendingTasks then
        { s with pendingTasks := s.pendingTasks.erase id
                 promises := setPromise s.promises id .rejected }
      else s
    processQueue { s' with availableWorkers := s'.availableWorkers + 1 }
  | .terminate =>
    { s with workers := 0, availableWorkers := 0, taskQueue := [], pendingTasks := [] }
  | .clearCache => s

/-- Apply a sequence of pool events in order. -/
def applyEvents (s : PoolState) (evs : List PoolEvent) : PoolState :=
  evs.foldl applyEvent s

/-- The settlement state of the promise created for task `id`
(`none` if no `analyze` call ever got that id). -/
def promiseStatus (s : PoolState) (id : ℕ) : Option PStatus :=
  (s.promises.lookup id)

/-- A freshly constructed pool with `n` workers (constructor, lines
17-62). -/
def initialPool (n : ℕ) : PoolState :=
  { workers := n, availableWorkers := n, taskQueue := [], pendingTasks := [],
    promises := [], nextTaskId := 0 }

/-- Concrete scenario for claim C1: a one-worker pool with a single
`analyze` call whose task has been dispatched (in flight). -/
def c1PoolBusy : PoolState := applyEvent (initialPool 1) (.analyze "fen1" 12)

/-- The same pool immediately after `terminate()`. -/
def c1PoolTerminated : PoolState := applyEvent c1PoolBusy .terminate

/-! ## The tactic pipeline (`src/src/lib/tacticsGenerator.ts`, lines 5-164)

The pipeline consumes analysis results (engine continuation per candidate
position), runs the classifier, replays the continuation to build a
solution, and applies the ranking/quota selection.  The rules engine and
the classifier `analyzeTacticalPosition` are external calls from the
pipeline's point of view and are abstracted as function parameters: `step`
plays one engine move on a rules-engine state (returning `none` when the
replay throws, i.e. the move is illegal there), `mkChess` builds the state
for a FEN, and `cls` is the classifier call made at lines 104-108. -/

/-- Difficulty tiers. -/
inductive Difficulty where
  | easy
  | medium
  | hard
deriving DecidableEq

/-- A produced tactic (tacticsGenerator.ts, lines 5-11). -/
structure Tactic where
  fen : String
  solution : List String
  difficulty : Difficulty
  gameUrl : String
  evaluation : ℤ
deriving DecidableEq

/-- The classifier output fields the pipeline reads
(`analyzeTacticalPosition` in `src/src/lib/tacticalPatterns.ts`). -/
structure TacticalInfo where
  isTactical : Bool
  evalSwing : ℤ
  difficulty : Difficulty
deriving DecidableEq

/-- One candidate position's analysis data as the pipeline sees it after
`Promise.all`: the FEN before the move, the SAN of the historically played
move, the source game URL and the engine continuation
(`bestContinuation.moves`). -/
structure AnalysisResult where
  fenBefore : String
  actualSan : String
  gameUrl : String
  contMoves : List GMove
deriving DecidableEq

/-- The solution-building replay (tacticsGenerator.ts, lines 111-124):
play the continuation moves on a fresh rules-engine state, collecting SANs,
stopping at the first illegal replay; the loop bound `k <
Math.min(5, moves.length)` is the `take 5` applied by the caller. -/
def buildSolution {σ : Type} (step : σ → GMove → Option σ) :
    σ → List GMove → List String
  | _, [] => []
  | s, m :: rest =>
    match step s m with
    | some s' => m.san :: buildSolution step s' rest
    | none => []

/-- Processing of one analysis result (tacticsGenerator.ts, lines 93-137):
require the engine's top move to exist and match the played SAN, run the
classifier, require `isTactical` and `evalSwing > 300`, build the solution
with at most 5 replayed moves, require at least 2; on success produce the
`Tactic` record pushed at lines 127-133. -/
def processOne {σ : Type} (cls : AnalysisResult → TacticalInfo)
    (mkChess : String → σ) (step : σ → GMove → Option σ)
    (r : AnalysisResult) : Option Tactic :=
  match r.contMoves.head? with
  | none => none
  | some top =>
    if top.san ≠ r.actualSan then none
    else
      let info := cls r
      if info.isTactical ∧ 300 < info.evalSwing then
        let sol := buildSolution step (mkChess r.fenBefore) (r.contMoves.take 5)
        if 2 ≤ sol.length then
          some { fen := r.fenBefore, solution := sol.take 5, difficulty := info.difficulty,
                 gameUrl := r.gameUrl, evaluation := info.evalSwing }
        else none
      else none

/-- The `for (const result of analysisResults)` loop (lines 93-138):
`null` results (failed analyses) are skipped, accepted tactics accumulate
in order, and the loop breaks once 20 tactics have been collected. -/
def processLoop {σ : Type} (cls : AnalysisResult → TacticalInfo)
    (mkChess : String → σ) (step : σ → GMove → Option σ) :
    List (Option AnalysisResult) → List Tactic → List Tactic
  | [], acc => acc
  | none :: rest, acc => processLoop cls mkChess step rest acc
  | some r :: rest, acc =>
    match processOne cls mkChess step r with
    | none => processLoop cls mkChess step rest acc
    | some t =>
      let acc' := acc ++ [t]
      if 20 ≤ acc'.length then acc' else processLoop cls mkChess step rest acc'

/-- All tactics extracted from the analysis results, before ranking. -/
def processResults {σ : Type} (cls : AnalysisResult → TacticalInfo)
    (mkChess : String → σ) (step : σ → GMove → Option σ)
    (rs : List (Option AnalysisResult)) : List Tactic :=
  processLoop cls mkChess step rs []

/-- One step of a stable descending insertion by `evaluation`. -/
def insertTactic (t : Tactic) : List Tactic → List Tactic
  | [] => [t]
  | y :: ys =>
    if y.evaluation ≤ t.evaluation then t :: y :: ys
    else y :: insertTactic t ys

/-- `tactics.sort((a, b) => b.evaluation - a.evaluation)` (line 144):
stable sort by descending evaluation swing.  JavaScript's sort is stable
and a stable sort by a fixed key is unique, so this insertion sort
computes the source's result. -/
def sortByEvalDesc (ts : List Tactic) : List Tactic :=
  ts.foldr insertTactic []

/-- The quota-selection loop (lines 146-157): walk the ranked list, take a
tactic only while its tier count is below 4, and break once 10 tactics
have been accepted. -/
def selectLoop : List Tactic → ℕ → ℕ → ℕ → ℕ → List Tactic
  | [], _, _, _, _ => []
  | t :: rest, e, m, h, total =>
    let c := match t.difficulty with
      | .easy => e
      | .medium => m
      | .hard => h
    if c < 4 then
      let total' := total + 1
      t :: (if 10 ≤ total' then []
            else match t.difficulty with
              | .easy => selectLoop rest (e + 1) m h total'
              | .medium => selectLoop rest e (m + 1) h total'
              | .hard => selectLoop rest e m (h + 1) total')
    else selectLoop rest e m h total

/-- The final per-tier quota selection with all counters starting at 0. -/
def selectFinal (ts : List Tactic) : List Tactic :=
  selectLoop ts 0 0 0 0

/-- The final tactic list returned by `generateTactics` (lines 140-163) as
a function of the analysis results: extraction, then descending sort by
evaluation swing, then quota selection. -/
def generateTacticsFinal {σ : Type} (cls : AnalysisResult → TacticalInfo)
    (mkChess : String → σ) (step : σ → GMove → Option σ)
    (rs : List (Option AnalysisResult)) : List Tactic :=
  selectFinal (sortByEvalDesc (processResults cls mkChess step rs))

/-! ## Progress reporting (`src/src/lib/tacticsGenerator.ts`, lines 13-164)

`generateTactics` emits `onProgress(0, _)` at the start (line 21) and
`onProgress(5, _)` after position discovery (line 66).  Each analysis
promise, when it completes, emits `5 + (index / N) * 85` where `index` is
the *submission* index of that position and `N` the number of positions —
but only when `index % 10 === 0` (lines 73-76).  These per-analysis
callbacks fire in completion order, which the pool does not guarantee to
match submission order.  Finally lines 90, 142 and 159 emit 90, 95
and 100.  `progressValues n order` is the sequence of percentages
delivered when the `n` submitted analyses complete in the order given by
the list `order` of submission indices. -/

/-- The sequence of percentage values passed to `onProgress` for a batch
of `n` positions completing in the given order of submission indices. -/
def progressValues (n : ℕ) (order : List ℕ) : List ℚ :=
  [0, 5]
    ++ (order.filter fun i => i % 10 == 0).map (fun i : ℕ => 5 + ((i : ℚ) / (n : ℚ)) * 85)
    ++ [90, 95, 100]

/-- A completion order for 11 analyses in which submission index 10
finishes first: the milestone for index 10 is delivered before the
milestone for index 0. -/
def c4Order : List ℕ := [10, 0, 1, 2, 3, 4, 5, 6, 7, 8, 9]

/-! ## Remaining concrete objects used by witnesses and counterexamples -/

/-- The result message a worker posts back for a completed analysis
(`src/src/lib/chessWorker.ts`, lines 177-186). -/
structure WorkerResultMsg where
  id : ℕ
  moves : List GMove
  score : ℤ
  fen : String
  nodesSearched : ℕ
deriving DecidableEq

/-- Construction of the worker's result message: the source posts the
field literal `nodesSearched: 0` (chessWorker.ts line 184; likewise line
119 in `completeAnalysis`) — no node counter exists anywhere in the
worker or the search. -/
def mkWorkerResult (id : ℕ) (moves : List GMove) (score : ℤ) (fen : String) : WorkerResultMsg :=
  { id := id, moves := moves, score := score, fen := fen, nodesSearched := 0 }

/-- A quiet move (no capture, no check, no promotion, non-central
destination): its `moveScore` is 0. -/
def quietMove : GMove :=
  { san := "Nh3", piece := .n, captured := none, promotion := none, toSquare := "h3" }

/-- A queen-takes-pawn capture: its `moveScore` is `100*10 - 900 = 100`. -/
def captureMove : GMove :=
  { san := "Qxa1", piece := .q, captured := some .p, promotion := none, toSquare := "a1" }

/-- A leaf node (game over) with the given static evaluation. -/
def leafTree (e : ℤ) : GTree := .node e false true []

/-- A linear game tree of height `k`: one legal move per node, leaf
evaluation 7, interior evaluation 5. -/
def chainT : ℕ → GTree
  | 0 => .node 7 false true []
  | k + 1 => .node 5 false false [(quietMove, chainT k)]

/-- A two-move tree used to instantiate the claim C2 amendment. -/
def c2SmallTree : GTree := .node 0 false false [(quietMove, leafTree 3), (captureMove, leafTree 9)]

/-- A root with 21 legal moves at depth 7: the quiet move (enumerated
first by the rules engine) leads to evaluation 1000 while the 20 captures
lead to evaluation 0.  `orderMoves` sorts the quiet move last, and the
depth-7 width cap of 20 then drops it. -/
def c2WideTree : GTree :=
  .node 0 false false ((quietMove, leafTree 1000) :: List.replicate 20 (captureMove, leafTree 0))

/-- A node whose standing evaluation (100) already meets typical `beta`
bounds. -/
def c9HighTree : GTree := .node 100 false false []

/-- A node with one capture and one quiet move available. -/
def c9CapTree : GTree :=
  .node 0 false false [(captureMove, leafTree 40), (quietMove, leafTree 90)]

/-- The empty board. -/
def emptyBoard : Board := fun _ _ => none

/-- A position the rules engine reports as checkmate, white to move. -/
def c8CheckmatePos : Position :=
  { board := emptyBoard, turn := .w, isCheckmate := true, isDraw := false,
    isStalemate := false, isThreefoldRepetition := false, inCheck := true, movesCount := 0 }

/-- A position the rules engine reports as a draw. -/
def c8DrawPos : Position :=
  { board := emptyBoard, turn := .w, isCheckmate := false, isDraw := true,
    isStalemate := false, isThreefoldRepetition := false, inCheck := false, movesCount := 3 }

/-- A classifier stub accepting everything with swing 400. -/
def c6Cls : AnalysisResult → TacticalInfo :=
  fun _ => { isTactical := true, evalSwing := 400, difficulty := .easy }

/-- A trivial rules-engine state constructor for the pipeline witness. -/
def c6MkChess : String → Unit := fun _ => ()

/-- A rules-engine step for which every replayed move is legal. -/
def c6Step : Unit → GMove → Option Unit := fun _ _ => some ()

/-- A bare engine move with the given SAN. -/
def sanMove (san : String) : GMove :=
  { san := san, piece := .q, captured := none, promotion := none, toSquare := "a1" }

/-- A candidate analysis whose engine top move matches the played move. -/
def c6Result : AnalysisResult :=
  { fenBefore := "fenA", actualSan := "Qa1", gameUrl := "urlA",
    contMoves := [sanMove "Qa1", sanMove "Kb2"] }

/-- The tactic the pipeline produces from `c6Result` under `c6Cls`. -/
def c6Tactic : Tactic :=
  { fen := "fenA", solution := ["Qa1", "Kb2"], difficulty := .easy,
    gameUrl := "urlA", evaluation := 400 }

/-- Number of tactics of a given difficulty in a list. -/
def countByDifficulty (l : List Tactic) (d : Difficulty) : ℕ :=
  (l.filter fun t => decide (t.difficulty = d)).length

/-- The facts about a promise id that make it impossible for any later
pool event to settle it: it is pending, its id is in neither the queue
nor the in-flight map, and its id is below `nextTaskId` (so no future
`analyze` call reuses it). -/
def promiseUntouchable (id : ℕ) (s : PoolState) : Prop :=
  promiseStatus s id = some .pending ∧ id ∉ s.pendingTasks ∧
    (∀ t ∈ s.taskQueue, t.id ≠ id) ∧ id < s.nextTaskId

/-! # Theorems -/

/-! ## Claim C5: the evaluator negates under color mirroring -/

lemma squareScore_mirror (b : Board) (rank file : Fin 8) :
    squareScore rank file ((b rank.rev file).map mirrorPiece)
      = - squareScore rank.rev file (b rank.rev file) := by
  cases h : b rank.rev file with
  | none => simp [squareScore]
  | some pc =>
    obtain ⟨pt, pcol⟩ := pc
    have hrev : ((rank.rev : ℕ)) = 7 - (rank : ℕ) := by
      simp [Fin.val_rev]
    have hr : (rank : ℕ) ≤ 7 := by omega
    cases pcol with
    | w =>
      simp [squareScore, mirrorPiece, swapColor, getSquareIndex, hrev]
      have h7 : 7 - (7 - (rank : ℕ)) = (rank : ℕ) := by omega
      rw [h7]
    | b =>
      simp [squareScore, mirrorPiece, swapColor, getSquareIndex, hrev]

lemma materialPositional_mirror (b : Board) :
    materialPositional (fun rank file => (b rank.rev file).map mirrorPiece)
      = - materialPositional b := by
  unfold materialPositional
  have h1 : ∀ rank : Fin 8, ∑ file : Fin 8, squareScore rank file ((b rank.rev file).map mirrorPiece)
      = - ∑ file : Fin 8, squareScore rank.rev file (b rank.rev file) := by
    intro rank
    rw [← Finset.sum_neg_distrib]
    exact Finset.sum_congr rfl fun file _ => squareScore_mirror b rank file
  calc ∑ rank : Fin 8, ∑ file : Fin 8, squareScore rank file ((b rank.rev file).map mirrorPiece)
      = ∑ rank : Fin 8, - ∑ file : Fin 8, squareScore rank.rev file (b rank.rev file) :=
        Finset.sum_congr rfl fun rank _ => h1 rank
    _ = - ∑ rank : Fin 8, ∑ file : Fin 8, squareScore rank.rev file (b rank.rev file) := by
        rw [← Finset.sum_neg_distrib]
    _ = - ∑ rank : Fin 8, ∑ file : Fin 8, squareScore rank file (b rank file) := by
        congr 1
        exact Fintype.sum_equiv (Fin.revPerm) _ _ (fun rank => rfl)

lemma filePawnCount_mirror (b : Board) (c : PColor) (file : Fin 8) :
    filePawnCount (fun rank f => (b rank.rev f).map mirrorPiece) c file
      = filePawnCount b (swapColor c) file := by
  unfold filePawnCount
  rw [Finset.card_filter, Finset.card_filter]
  apply Fintype.sum_equiv (Fin.revPerm)
  intro rank
  congr 1
  simp only [eq_iff_iff]
  cases hb : b rank.rev file with
  | none => simp [hb, Fin.revPerm_apply]
  | some pc =>
    obtain ⟨pt, pcol⟩ := pc
    simp [hb, mirrorPiece, Fin.revPerm_apply]
    intro _
    cases pcol <;> cases c <;> simp [swapColor]

lemma evaluatePawnStructure_mirror (b : Board) :
    evaluatePawnStructure (fun rank file => (b rank.rev file).map mirrorPiece)
      = - evaluatePawnStructure b := by
  unfold evaluatePawnStructure
  rw [← Finset.sum_neg_distrib]
  apply Finset.sum_congr rfl
  intro file _
  rw [filePawnCount_mirror, filePawnCount_mirror]
  simp only [swapColor]
  split_ifs <;> ring

/-- Claim C5 (confirmed): for every position, `evaluatePosition` applied
to the color-reversed mirror (board reflected across the ranks with colors
swapped, side to move swapped, rules-engine observations preserved by the
color symmetry of chess) yields exactly the negated score; and
`evaluatePosition` is a pure function, hence deterministic: two
evaluations of the same position give the same score. -/
theorem c5_evaluate_mirror_negation (pos : Position) :
    evaluatePosition (mirrorPosition pos) = - evaluatePosition pos ∧
    evaluatePosition pos = evaluatePosition pos := by
  refine ⟨?_, rfl⟩
  unfold evaluatePosition mirrorPosition
  simp only
  cases hcm : pos.isCheckmate with
  | true =>
    cases ht : pos.turn <;> simp [swapColor, ht]
  | false =>
    cases hdr : (pos.isDraw || pos.isStalemate || pos.isThreefoldRepetition) with
    | true => simp [hdr]
    | false =>
      simp only [hdr, Bool.false_eq_true, if_false]
      rw [materialPositional_mirror, evaluatePawnStructure_mirror]
      cases ht : pos.turn <;> cases hic : pos.inCheck <;> simp [swapColor, ht] <;> ring

/-! ## Claim C8: terminal conditions of the evaluator -/

/-- Claim C8 (confirmed): `evaluatePosition` checks terminal conditions
first.  On a checkmate it returns `-30000` when white is to move and
`+30000` when black is to move; on a non-checkmate position that the
rules engine reports drawn (`isDraw`, which covers insufficient material
and the 50-move rule, or stalemate, or threefold repetition) it returns
exactly 0, regardless of the board content — the material, placement,
mobility, check and pawn-structure scoring never executes. -/
theorem c8_terminal_evaluation (pos : Position) :
    (pos.isCheckmate = true →
      evaluatePosition pos = (if pos.turn = .w then -30000 else 30000)) ∧
    (pos.isCheckmate = false →
      (pos.isDraw || pos.isStalemate || pos.isThreefoldRepetition) = true →
      evaluatePosition pos = 0) := by
  constructor
  · intro h
    simp [evaluatePosition, h]
  · intro h h2
    simp [evaluatePosition, h, h2]

/-- Witness for claim C8 at two concrete positions. -/
theorem c8_terminal_evaluation_witness :
    evaluatePosition c8CheckmatePos = -30000 ∧ evaluatePosition c8DrawPos = 0 :=
  ⟨by simpa using (c8_terminal_evaluation c8CheckmatePos).1 rfl,
   (c8_terminal_evaluation c8DrawPos).2 rfl rfl⟩

/-! ## Claim C10: the worker clamps the requested depth -/

/-- Claim C10 (confirmed): for every analysis request handled by the chess
worker, the depth passed to the engine is `min (max requested 10) 18`; in
particular any request below 10 — such as the pipeline's depth-4
submissions — is searched at depth 10. -/
theorem c10_depth_clamp :
    engineSearchDepth pipelineSubmittedDepth = 10 ∧
    (∀ d : ℤ, engineSearchDepth d = min (max d 10) 18) ∧
    (∀ d : ℤ, d ≤ 10 → engineSearchDepth d = 10) ∧
    (∀ d : ℤ, 10 ≤ d → d ≤ 18 → engineSearchDepth d = d) ∧
    (∀ d : ℤ, 18 ≤ d → engineSearchDepth d = 18) := by
  refine ⟨by decide, fun d => rfl, ?_, ?_, ?_⟩ <;>
    intro d <;> intros <;> simp [engineSearchDepth, safeDepth] <;> omega

/-- Witness for claim C10 at the three clamp regimes. -/
theorem c10_depth_clamp_witness :
    engineSearchDepth 4 = 10 ∧ engineSearchDepth 12 = 12 ∧ engineSearchDepth 30 = 18 :=
  ⟨c10_depth_clamp.2.2.1 4 (by decide),
   c10_depth_clamp.2.2.2.1 12 (by decide) (by decide),
   c10_depth_clamp.2.2.2.2 30 (by decide)⟩

/-! ## Claim C4: progress percentages and completion order -/

lemma chain'_milestones {L : List ℚ} (hchain : List.Chain' (· ≤ ·) L)
    (hmem : ∀ x ∈ L, 5 ≤ x ∧ x ≤ 90) :
    List.Chain' (· ≤ ·) ([0, 5] ++ L ++ [90, 95, 100]) := by
  rw [List.append_assoc, List.chain'_append, List.chain'_append]
  refine ⟨by norm_num [List.chain'_cons], ⟨hchain, by norm_num [List.chain'_cons], ?_⟩, ?_⟩
  · intro x hx y hy
    simp only [List.head?_cons, Option.mem_def, Option.some.injEq] at hy
    subst hy
    exact (hmem x (List.mem_of_mem_getLast? hx)).2
  · intro x hx y hy
    simp only [List.getLast?_cons_cons, List.getLast?_singleton, Option.mem_def,
      Option.some.injEq] at hx
    subst hx
    cases L with
    | nil =>
      simp only [List.nil_append, List.head?_cons, Option.mem_def, Option.some.injEq] at hy
      subst hy
      norm_num
    | cons a as =>
      simp only [List.cons_append, List.head?_cons, Option.mem_def, Option.some.injEq] at hy
      subst hy
      exact (hmem a (List.mem_cons_self a as)).1

/-- Claim C4 counterexample: with 11 submitted analyses completing in the
order `c4Order` — a permutation of the submission indices in which index
10 finishes before index 0 — the delivered percentages are not
monotonically non-decreasing: the sequence contains
`5 + (10/11)·85 ≈ 82.3` followed by `5`. -/
theorem c4_progress_not_monotone :
    c4Order.Perm (List.range 11) ∧
    ¬ List.Chain' (· ≤ ·) (progressValues 11 c4Order) := by
  constructor
  · decide
  · simp only [progressValues, c4Order]
    norm_num [List.filter, List.chain'_cons]

/-- Claim C4 (amended): the progress percentage attached to an analysis is
computed from its submission index, so the delivered sequence is
monotonically non-decreasing when the analyses complete in submission
order (and, by the counterexample above, not in general). -/
theorem c4_progress_monotone_in_submission_order (n : ℕ) :
    List.Chain' (· ≤ ·) (progressValues n (List.range n)) := by
  rcases Nat.eq_zero_or_pos n with hn | hn
  · subst hn
    simp only [progressValues, List.range_zero, List.filter_nil, List.map_nil, List.nil_append]
    norm_num [List.chain'_cons]
  · have hn' : (0 : ℚ) < n := by exact_mod_cast hn
    unfold progressValues
    apply chain'_milestones
    · apply List.Pairwise.chain'
      have hstep : ∀ a b : ℕ, a < b →
          (5 + ((a : ℚ) / (n : ℚ)) * 85) ≤ (5 + ((b : ℚ) / (n : ℚ)) * 85) := by
        intro a b hab
        have hc : (a : ℚ) ≤ (b : ℚ) := by exact_mod_cast Nat.le_of_lt hab
        gcongr
      exact List.Pairwise.map _ (fun a b hab => hstep a b hab)
        ((List.pairwise_lt_range n).filter _)
    · intro x hx
      rw [List.mem_map] at hx
      obtain ⟨i, hi, rfl⟩ := hx
      rw [List.mem_filter, List.mem_range] at hi
      have h0 : (0 : ℚ) ≤ (i : ℚ) / (n : ℚ) := by positivity
      have h1 : (i : ℚ) / (n : ℚ) < 1 := by
        rw [div_lt_one hn']
        exact_mod_cast hi.1
      constructor
      · nlinarith
      · nlinarith

/-! ## Claim C1: terminate() and outstanding futures -/

lemma lookup_append_right_ne {l : List (ℕ × PStatus)} {id k : ℕ} {st : PStatus}
    (h : id ≠ k) : (l ++ [(k, st)]).lookup id = l.lookup id := by
  induction l with
  | nil =>
    have hne : (id == k) = false := beq_eq_false_iff_ne.mpr h
    simp [List.lookup_cons, hne]
  | cons p rest ih =>
    obtain ⟨a, b⟩ := p
    rw [List.cons_append, List.lookup_cons, List.lookup_cons]
    cases hia : (id == a) <;> simp [hia]
    exact ih

lemma lookup_setPromise_ne {l : List (ℕ × PStatus)} {id k : ℕ} {st : PStatus}
    (h : id ≠ k) : (setPromise l k st).lookup id = l.lookup id := by
  induction l with
  | nil => rfl
  | cons p rest ih =>
    obtain ⟨a, b⟩ := p
    by_cases hak : a = k
    · subst hak
      have hne : (id == a) = false := beq_eq_false_iff_ne.mpr h
      show List.lookup id ((if a = a then (a, st) else (a, b)) :: setPromise rest a st)
        = List.lookup id ((a, b) :: rest)
      rw [if_pos rfl, List.lookup_cons, List.lookup_cons]
      simp only [hne]
      exact ih
    · show List.lookup id ((if a = k then (k, st) else (a, b)) :: setPromise rest k st)
        = List.lookup id ((a, b) :: rest)
      rw [if_neg hak, List.lookup_cons, List.lookup_cons]
      cases hia : (id == a) <;> simp [hia]
      exact ih

lemma dispatchLoop_avoid {id : ℕ} :
    ∀ (q : List PoolTask) (a : ℕ) (p : List ℕ),
      (∀ t ∈ q, t.id ≠ id) → id ∉ p →
      (∀ t ∈ (dispatchLoop q a p).1, t.id ≠ id) ∧ id ∉ (dispatchLoop q a p).2.2 := by
  intro q
  induction q with
  | nil =>
    intro a p hq hp
    exact ⟨by simp [dispatchLoop], by simpa [dispatchLoop] using hp⟩
  | cons t rest ih =>
    intro a p hq hp
    cases a with
    | zero => exact ⟨hq, hp⟩
    | succ a' =>
      apply ih
      · intro t' ht'
        exact hq t' (List.mem_cons_of_mem t ht')
      · intro hc
        rcases List.mem_append.mp hc with hA | hB
        · exact hp hA
        · simp only [List.mem_singleton] at hB
          exact hq t (List.mem_cons_self t rest) hB.symm

lemma promiseUntouchable_processQueue {id : ℕ} {s : PoolState}
    (h : promiseUntouchable id s) : promiseUntouchable id (processQueue s) := by
  obtain ⟨h1, h2, h3, h4⟩ := h
  have hd := dispatchLoop_avoid s.taskQueue s.availableWorkers s.pendingTasks h3 h2
  exact ⟨h1, hd.2, hd.1, h4⟩

lemma promiseUntouchable_applyEvent {id : ℕ} {s : PoolState}
    (h : promiseUntouchable id s) (ev : PoolEvent) :
    promiseUntouchable id (applyEvent s ev) := by
  obtain ⟨h1, h2, h3, h4⟩ := h
  cases ev with
  | analyze fen depth =>
    apply promiseUntouchable_processQueue
    refine ⟨?_, h2, ?_, ?_⟩
    · show (s.promises ++ [(s.nextTaskId, PStatus.pending)]).lookup id = some PStatus.pending
      rw [lookup_append_right_ne (Nat.ne_of_lt h4)]
      exact h1
    · intro t ht
      rcases List.mem_append.mp ht with hA | hB
      · exact h3 t hA
      · simp only [List.mem_singleton] at hB
        subst hB
        simpa using Nat.ne_of_gt h4
    · show id < s.nextTaskId + 1
      omega
  | result rid =>
    simp only [applyEvent]
    apply promiseUntouchable_processQueue
    by_cases hrid : rid ∈ s.pendingTasks
    · have hne : id ≠ rid := fun e => h2 (e ▸ hrid)
      simp only [hrid, if_pos]
      refine ⟨?_, ?_, h3, h4⟩
      · show (setPromise s.promises rid PStatus.resolved).lookup id = some PStatus.pending
        rw [lookup_setPromise_ne hne]
        exact h1
      · intro hc
        exact h2 (List.mem_of_mem_erase hc)
    · simp only [if_neg hrid]
      exact ⟨h1, h2, h3, h4⟩
  | error rid =>
    simp only [applyEvent]
    apply promiseUntouchable_processQueue
    by_cases hrid : rid ∈ s.pendingTasks
    · have hne : id ≠ rid := fun e => h2 (e ▸ hrid)
      simp only [hrid, if_pos]
      refine ⟨?_, ?_, h3, h4⟩
      · show (setPromise s.promises rid PStatus.rejected).lookup id = some PStatus.pending
        rw [lookup_setPromise_ne hne]
        exact h1
      · intro hc
        exact h2 (List.mem_of_mem_erase hc)
    · simp only [if_neg hrid]
      exact ⟨h1, h2, h3, h4⟩
  | terminate =>
    exact ⟨h1, by simp [applyEvent], by simp [applyEvent], h4⟩
  | clearCache =>
    exact ⟨h1, h2, h3, h4⟩

lemma promiseUntouchable_applyEvents {id : ℕ} {s : PoolState}
    (h : promiseUntouchable id s) (evs : List PoolEvent) :
    promiseUntouchable id (applyEvents s evs) := by
  induction evs generalizing s with
  | nil => exact h
  | cons ev rest ih => exact ih (promiseUntouchable_applyEvent h ev)

/-- Claim C1 counterexample: a one-worker pool with one `analyze` call in
flight.  After `terminate()` the future is still pending, and it stays
pending after every possible sequence of subsequent pool events — it is
never rejected, contradicting the claim that every outstanding future is
subsequently resolved to a failure. -/
theorem c1_outstanding_future_left_pending :
    c1PoolBusy.pendingTasks = [0] ∧
    promiseStatus c1PoolBusy 0 = some .pending ∧
    promiseStatus c1PoolTerminated 0 = some .pending ∧
    ∀ evs : List PoolEvent, promiseStatus (applyEvents c1PoolTerminated evs) 0 = some .pending := by
  refine ⟨by decide, by decide, by decide, fun evs => ?_⟩
  have hinv : promiseUntouchable 0 c1PoolTerminated := by
    unfold promiseUntouchable
    refine ⟨by decide, by decide, by decide, by decide⟩
  exact (promiseUntouchable_applyEvents hinv evs).1

/-- Claim C1 (amended): `terminate()` stops all executors and discards
pending and in-flight work, but it never settles the outstanding futures:
every future still pending right after `terminate()` remains pending
forever — `terminate()` drops the resolver references (clearing
`taskQueue` and `pendingTasks`), so no subsequent pool event can resolve
or reject it. -/
theorem c1_terminate_never_settles (s : PoolState) (id : ℕ) (evs : List PoolEvent)
    (hid : id < s.nextTaskId)
    (hpend : promiseStatus (applyEvent s .terminate) id = some .pending) :
    promiseStatus (applyEvents (applyEvent s .terminate) evs) id = some .pending := by
  have hinv : promiseUntouchable id (applyEvent s .terminate) := by
    refine ⟨hpend, by simp [applyEvent], by simp [applyEvent], ?_⟩
    show id < s.nextTaskId
    exact hid
  exact (promiseUntouchable_applyEvents hinv evs).1

/-- Witness for the claim C1 amendment on the concrete busy pool. -/
theorem c1_terminate_never_settles_witness :
    promiseStatus (applyEvents (applyEvent c1PoolBusy .terminate)
      [.result 0, .analyze "fen2" 12, .error 0]) 0 = some .pending :=
  c1_terminate_never_settles c1PoolBusy 0 [.result 0, .analyze "fen2" 12, .error 0]
    (by decide) (by decide)

/-! ## Claim C6: acceptance conditions for emitting a tactic -/

lemma buildSolution_length_le {σ : Type} (step : σ → GMove → Option σ) :
    ∀ (s : σ) (ms : List GMove), (buildSolution step s ms).length ≤ ms.length := by
  intro s ms
  induction ms generalizing s with
  | nil => simp [buildSolution]
  | cons m rest ih =>
    simp only [buildSolution]
    cases h : step s m with
    | none => simp
    | some s' =>
      simp only [List.length_cons]
      exact Nat.succ_le_succ (ih s')

lemma processOne_eq_some {σ : Type} {cls : AnalysisResult → TacticalInfo}
    {mkChess : String → σ} {step : σ → GMove → Option σ}
    {r : AnalysisResult} {t : Tactic}
    (h : processOne cls mkChess step r = some t) :
    (∃ top, r.contMoves.head? = some top ∧ top.san = r.actualSan) ∧
    (cls r).isTactical = true ∧ 300 < (cls r).evalSwing ∧
    2 ≤ t.solution.length ∧ t.solution.length ≤ 5 := by
  unfold processOne at h
  cases htop : r.contMoves.head? with
  | none => rw [htop] at h; cases h
  | some top =>
    rw [htop] at h
    dsimp only at h
    split at h
    · cases h
    · rename_i hsan'
      have hsan : top.san = r.actualSan := not_not.mp hsan'
      split at h
      · rename_i hcond
        split at h
        · rename_i hlen
          have hle : (buildSolution step (mkChess r.fenBefore) (r.contMoves.take 5)).length ≤ 5 := by
            calc (buildSolution step (mkChess r.fenBefore) (r.contMoves.take 5)).length
                ≤ (r.contMoves.take 5).length := buildSolution_length_le step _ _
              _ ≤ 5 := by simp [List.length_take]
          obtain rfl := Option.some.inj h
          refine ⟨⟨top, rfl, hsan⟩, by simpa using hcond.1, hcond.2, ?_, ?_⟩
          · simp only [List.length_take]
            omega
          · simp only [List.length_take]
            omega
        · cases h
      · cases h

lemma processLoop_mem {σ : Type} (cls : AnalysisResult → TacticalInfo)
    (mkChess : String → σ) (step : σ → GMove → Option σ) :
    ∀ (rs : List (Option AnalysisResult)) (acc : List Tactic) (t : Tactic),
      t ∈ processLoop cls mkChess step rs acc →
      t ∈ acc ∨ ∃ r : AnalysisResult, some r ∈ rs ∧ processOne cls mkChess step r = some t := by
  intro rs
  induction rs with
  | nil =>
    intro acc t ht
    exact Or.inl ht
  | cons hd rest ih =>
    intro acc t ht
    cases hd with
    | none =>
      rcases ih acc t ht with h | ⟨r, hr, hp⟩
      · exact Or.inl h
      · exact Or.inr ⟨r, List.mem_cons_of_mem _ hr, hp⟩
    | some r0 =>
      simp only [processLoop] at ht
      cases hp0 : processOne cls mkChess step r0 with
      | none =>
        rw [hp0] at ht
        rcases ih acc t ht with h | ⟨r, hr, hp⟩
        · exact Or.inl h
        · exact Or.inr ⟨r, List.mem_cons_of_mem _ hr, hp⟩
      | some t0 =>
        rw [hp0] at ht
        dsimp only at ht
        by_cases hbreak : 20 ≤ (acc ++ [t0]).length
        · rw [if_pos hbreak] at ht
          rcases List.mem_append.mp ht with h | h
          · exact Or.inl h
          · simp only [List.mem_singleton] at h
            subst h
            exact Or.inr ⟨r0, List.mem_cons_self _ _, hp0⟩
        · rw [if_neg hbreak] at ht
          rcases ih (acc ++ [t0]) t ht with h | ⟨r, hr, hp⟩
          · rcases List.mem_append.mp h with h' | h'
            · exact Or.inl h'
            · simp only [List.mem_singleton] at h'
              subst h'
              exact Or.inr ⟨r0, List.mem_cons_self _ _, hp0⟩
          · exact Or.inr ⟨r, List.mem_cons_of_mem _ hr, hp⟩

/-- Claim C6 (confirmed): every tactic emitted by the extraction loop of
`generateTactics` arises from an analysis result for which all of the
following hold: the engine's top recommended move exists and its SAN
exactly equals the historically played move's SAN, the classifier reports
`isTactical`, the evaluation swing exceeds 300, and the replayed solution
line has at least 2 and at most 5 moves. -/
theorem c6_tactic_acceptance_conditions {σ : Type} (cls : AnalysisResult → TacticalInfo)
    (mkChess : String → σ) (step : σ → GMove → Option σ)
    (rs : List (Option AnalysisResult)) (t : Tactic)
    (ht : t ∈ processResults cls mkChess step rs) :
    ∃ r : AnalysisResult, some r ∈ rs ∧ processOne cls mkChess step r = some t ∧
      (∃ top, r.contMoves.head? = some top ∧ top.san = r.actualSan) ∧
      (cls r).isTactical = true ∧ 300 < (cls r).evalSwing ∧
      2 ≤ t.solution.length ∧ t.solution.length ≤ 5 := by
  rcases processLoop_mem cls mkChess step rs [] t ht with h | ⟨r, hr, hp⟩
  · cases h
  · obtain ⟨htop, h1, h2, h3, h4⟩ := processOne_eq_some hp
    exact ⟨r, hr, hp, htop, h1, h2, h3, h4⟩

/-- Witness for claim C6 on a concrete accepted candidate. -/
theorem c6_tactic_acceptance_conditions_witness :
    c6Tactic ∈ processResults c6Cls c6MkChess c6Step [some c6Result] ∧
    ∃ r : AnalysisResult, some r ∈ [some c6Result] ∧
      processOne c6Cls c6MkChess c6Step r = some c6Tactic ∧
      (∃ top, r.contMoves.head? = some top ∧ top.san = r.actualSan) ∧
      (c6Cls r).isTactical = true ∧ 300 < (c6Cls r).evalSwing ∧
      2 ≤ c6Tactic.solution.length ∧ c6Tactic.solution.length ≤ 5 :=
  ⟨by decide,
   c6_tactic_acceptance_conditions c6Cls c6MkChess c6Step [some c6Result] c6Tactic (by decide)⟩

/-! ## Claim C7: the final list is ranked and quota-capped -/

lemma mem_insertTactic {t x : Tactic} :
    ∀ {l : List Tactic}, x ∈ insertTactic t l → x = t ∨ x ∈ l := by
  intro l
  induction l with
  | nil =>
    intro hx
    simp only [insertTactic, List.mem_singleton] at hx
    exact Or.inl hx
  | cons y ys ih =>
    intro hx
    simp only [insertTactic] at hx
    by_cases hc : y.evaluation ≤ t.evaluation
    · rw [if_pos hc] at hx
      rcases List.mem_cons.mp hx with h | h
      · exact Or.inl h
      · exact Or.inr h
    · rw [if_neg hc] at hx
      rcases List.mem_cons.mp hx with h | h
      · exact Or.inr (by simp [h])
      · rcases ih h with h' | h'
        · exact Or.inl h'
        · exact Or.inr (List.mem_cons_of_mem _ h')

lemma insertTactic_sorted (t : Tactic) :
    ∀ {l : List Tactic}, l.Sorted (fun a b => b.evaluation ≤ a.evaluation) →
      (insertTactic t l).Sorted (fun a b => b.evaluation ≤ a.evaluation) := by
  intro l
  induction l with
  | nil =>
    intro _
    simp [insertTactic]
  | cons y ys ih =>
    intro hs
    obtain ⟨hy, hys⟩ := List.pairwise_cons.mp hs
    simp only [insertTactic]
    split
    · rename_i hyt
      refine List.pairwise_cons.mpr ⟨?_, hs⟩
      intro z hz
      rcases List.mem_cons.mp hz with rfl | hz'
      · exact hyt
      · exact le_trans (hy z hz') hyt
    · rename_i hyt
      have hty : t.evaluation ≤ y.evaluation := le_of_lt (not_le.mp hyt)
      refine List.pairwise_cons.mpr ⟨?_, ih hys⟩
      intro z hz
      rcases mem_insertTactic hz with rfl | hz'
      · exact hty
      · exact hy z hz'

lemma sortByEvalDesc_sorted (ts : List Tactic) :
    (sortByEvalDesc ts).Sorted (fun a b => b.evaluation ≤ a.evaluation) := by
  induction ts with
  | nil => simp [sortByEvalDesc]
  | cons t rest ih => exact insertTactic_sorted t ih

lemma selectLoop_cons_easy (t : Tactic) (rest : List Tactic) (e m h total : ℕ)
    (hdiff : t.difficulty = .easy) :
    selectLoop (t :: rest) e m h total
      = if e < 4 then
          t :: (if 10 ≤ total + 1 then [] else selectLoop rest (e + 1) m h (total + 1))
        else selectLoop rest e m h total := by
  simp only [selectLoop, hdiff]

lemma selectLoop_cons_medium (t : Tactic) (rest : List Tactic) (e m h total : ℕ)
    (hdiff : t.difficulty = .medium) :
    selectLoop (t :: rest) e m h total
      = if m < 4 then
          t :: (if 10 ≤ total + 1 then [] else selectLoop rest e (m + 1) h (total + 1))
        else selectLoop rest e m h total := by
  simp only [selectLoop, hdiff]

lemma selectLoop_cons_hard (t : Tactic) (rest : List Tactic) (e m h total : ℕ)
    (hdiff : t.difficulty = .hard) :
    selectLoop (t :: rest) e m h total
      = if h < 4 then
          t :: (if 10 ≤ total + 1 then [] else selectLoop rest e m (h + 1) (total + 1))
        else selectLoop rest e m h total := by
  simp only [selectLoop, hdiff]

lemma countByDifficulty_nil (d : Difficulty) : countByDifficulty [] d = 0 := rfl

lemma countByDifficulty_cons (t : Tactic) (l : List Tactic) (d : Difficulty) :
    countByDifficulty (t :: l) d
      = (if t.difficulty = d then 1 else 0) + countByDifficulty l d := by
  by_cases h : t.difficulty = d
  · simp [countByDifficulty, List.filter_cons, h, Nat.add_comm]
  · simp [countByDifficulty, List.filter_cons, h]

lemma selectLoop_sublist :
    ∀ (ts : List Tactic) (e m h total : ℕ), (selectLoop ts e m h total).Sublist ts := by
  intro ts
  induction ts with
  | nil =>
    intro e m h total
    simp [selectLoop]
  | cons t rest ih =>
    intro e m h total
    cases hdiff : t.difficulty
    case easy =>
      rw [selectLoop_cons_easy t rest e m h total hdiff]
      split
      · split
        · exact List.Sublist.cons₂ t (List.nil_sublist rest)
        · exact List.Sublist.cons₂ t (ih (e + 1) m h (total + 1))
      · exact List.Sublist.cons t (ih e m h total)
    case medium =>
      rw [selectLoop_cons_medium t rest e m h total hdiff]
      split
      · split
        · exact List.Sublist.cons₂ t (List.nil_sublist rest)
        · exact List.Sublist.cons₂ t (ih e (m + 1) h (total + 1))
      · exact List.Sublist.cons t (ih e m h total)
    case hard =>
      rw [selectLoop_cons_hard t rest e m h total hdiff]
      split
      · split
        · exact List.Sublist.cons₂ t (List.nil_sublist rest)
        · exact List.Sublist.cons₂ t (ih e m (h + 1) (total + 1))
      · exact List.Sublist.cons t (ih e m h total)

lemma selectLoop_length :
    ∀ (ts : List Tactic) (e m h total : ℕ), total < 10 →
      (selectLoop ts e m h total).length ≤ 10 - total := by
  intro ts
  induction ts with
  | nil =>
    intro e m h total htot
    simp [selectLoop]
  | cons t rest ih =>
    intro e m h total htot
    cases hdiff : t.difficulty
    case easy =>
      rw [selectLoop_cons_easy t rest e m h total hdiff]
      split
      · split
        · simp only [List.length_cons, List.length_nil]
          omega
        · rename_i h10
          have hrec := ih (e + 1) m h (total + 1) (by omega)
          simp only [List.length_cons]
          omega
      · have hrec := ih e m h total htot
        omega
    case medium =>
      rw [selectLoop_cons_medium t rest e m h total hdiff]
      split
      · split
        · simp only [List.length_cons, List.length_nil]
          omega
        · rename_i h10
          have hrec := ih e (m + 1) h (total + 1) (by omega)
          simp only [List.length_cons]
          omega
      · have hrec := ih e m h total htot
        omega
    case hard =>
      rw [selectLoop_cons_hard t rest e m h total hdiff]
      split
      · split
        · simp only [List.length_cons, List.length_nil]
          omega
        · rename_i h10
          have hrec := ih e m (h + 1) (total + 1) (by omega)
          simp only [List.length_cons]
          omega
      · have hrec := ih e m h total htot
        omega

lemma selectLoop_counts :
    ∀ (ts : List Tactic) (e m h total : ℕ), e ≤ 4 → m ≤ 4 → h ≤ 4 →
      countByDifficulty (selectLoop ts e m h total) .easy ≤ 4 - e ∧
      countByDifficulty (selectLoop ts e m h total) .medium ≤ 4 - m ∧
      countByDifficulty (selectLoop ts e m h total) .hard ≤ 4 - h := by
  intro ts
  induction ts with
  | nil =>
    intro e m h total he hm hh
    simp [selectLoop, countByDifficulty]
  | cons t rest ih =>
    intro e m h total he hm hh
    cases hdiff : t.difficulty
    case easy =>
      rw [selectLoop_cons_easy t rest e m h total hdiff]
      split
      · rename_i hce
        split
        · refine ⟨?_, ?_, ?_⟩ <;>
            simp [countByDifficulty_cons, countByDifficulty_nil, hdiff] <;> omega
        · obtain ⟨ih1, ih2, ih3⟩ := ih (e + 1) m h (total + 1) (by omega) hm hh
          refine ⟨?_, ?_, ?_⟩ <;> rw [countByDifficulty_cons] <;> simp [hdiff] <;> omega
      · exact ih e m h total he hm hh
    case medium =>
      rw [selectLoop_cons_medium t rest e m h total hdiff]
      split
      · rename_i hce
        split
        · refine ⟨?_, ?_, ?_⟩ <;>
            simp [countByDifficulty_cons, countByDifficulty_nil, hdiff] <;> omega
        · obtain ⟨ih1, ih2, ih3⟩ := ih e (m + 1) h (total + 1) he (by omega) hh
          refine ⟨?_, ?_, ?_⟩ <;> rw [countByDifficulty_cons] <;> simp [hdiff] <;> omega
      · exact ih e m h total he hm hh
    case hard =>
      rw [selectLoop_cons_hard t rest e m h total hdiff]
      split
      · rename_i hce
        split
        · refine ⟨?_, ?_, ?_⟩ <;>
            simp [countByDifficulty_cons, countByDifficulty_nil, hdiff] <;> omega
        · obtain ⟨ih1, ih2, ih3⟩ := ih e m (h + 1) (total + 1) he hm (by omega)
          refine ⟨?_, ?_, ?_⟩ <;> rw [countByDifficulty_cons] <;> simp [hdiff] <;> omega
      · exact ih e m h total he hm hh

/-- Claim C7 (confirmed): the final tactic list is sorted in descending
order of evaluation swing, contains at most 4 tactics of each difficulty
tier, and has length at most 10. -/
theorem c7_final_list_sorted_and_capped {σ : Type} (cls : AnalysisResult → TacticalInfo)
    (mkChess : String → σ) (step : σ → GMove → Option σ)
    (rs : List (Option AnalysisResult)) :
    (generateTacticsFinal cls mkChess step rs).Sorted
        (fun a b => b.evaluation ≤ a.evaluation) ∧
    countByDifficulty (generateTacticsFinal cls mkChess step rs) .easy ≤ 4 ∧
    countByDifficulty (generateTacticsFinal cls mkChess step rs) .medium ≤ 4 ∧
    countByDifficulty (generateTacticsFinal cls mkChess step rs) .hard ≤ 4 ∧
    (generateTacticsFinal cls mkChess step rs).length ≤ 10 := by
  unfold generateTacticsFinal selectFinal
  have hsorted := sortByEvalDesc_sorted (processResults cls mkChess step rs)
  have hsub := selectLoop_sublist (sortByEvalDesc (processResults cls mkChess step rs)) 0 0 0 0
  have hcnt := selectLoop_counts (sortByEvalDesc (processResults cls mkChess step rs)) 0 0 0 0
    (by omega) (by omega) (by omega)
  have hlen := selectLoop_length (sortByEvalDesc (processResults cls mkChess step rs)) 0 0 0 0
    (by omega)
  exact ⟨List.Pairwise.sublist hsub hsorted,
    by simpa using hcnt.1, by simpa using hcnt.2.1, by simpa using hcnt.2.2,
    by simpa using hlen⟩

/-! ## Claim C9: quiescence search structure -/

lemma insertByScore_perm (x : GMove × GTree) :
    ∀ l : List (GMove × GTree), (insertByScore x l).Perm (x :: l) := by
  intro l
  induction l with
  | nil => exact List.Perm.refl _
  | cons y ys ih =>
    simp only [insertByScore]
    split
    · exact List.Perm.refl _
    · exact (List.Perm.cons y ih).trans (List.Perm.swap x y ys)

lemma orderMoves_perm (l : List (GMove × GTree)) : (orderMoves l).Perm l := by
  induction l with
  | nil => exact List.Perm.refl _
  | cons x xs ih =>
    show (insertByScore x (orderMoves xs)).Perm (x :: xs)
    exact (insertByScore_perm x (orderMoves xs)).trans (List.Perm.cons x ih)

lemma qsRecursedLoop_captures :
    ∀ (l : List (GMove × GTree)) (alpha beta : ℤ),
      (∀ mc ∈ l, mc.1.captured.isSome = true) →
      ∀ m ∈ qsRecursedLoop l alpha beta, m.captured.isSome = true := by
  intro l
  induction l with
  | nil =>
    intro alpha beta _ m hm
    simp [qsRecursedLoop] at hm
  | cons x rest ih =>
    intro alpha beta h m hm
    obtain ⟨mx, cx⟩ := x
    simp only [qsRecursedLoop] at hm
    by_cases h1 : beta ≤ -(quiescenceSearch cx (-beta) (-alpha))
    · rw [if_pos h1] at hm
      simp only [List.mem_singleton] at hm
      subst hm
      exact h (m, cx) (List.mem_cons_self _ _)
    · rw [if_neg h1] at hm
      by_cases h2 : alpha < -(quiescenceSearch cx (-beta) (-alpha))
      · rw [if_pos h2] at hm
        rcases List.mem_cons.mp hm with rfl | hm'
        · exact h (m, cx) (List.mem_cons_self _ _)
        · exact ih _ beta (fun mc hmc => h mc (List.mem_cons_of_mem _ hmc)) m hm'
      · rw [if_neg h2] at hm
        rcases List.mem_cons.mp hm with rfl | hm'
        · exact h (m, cx) (List.mem_cons_self _ _)
        · exact ih alpha beta (fun mc hmc => h mc (List.mem_cons_of_mem _ hmc)) m hm'

lemma qsRecursedLoop_shape :
    ∀ (l : List (GMove × GTree)) (alpha beta : ℤ),
      qsRecursedLoop l alpha beta
        = (l.map Prod.fst).take (qsRecursedLoop l alpha beta).length := by
  intro l
  induction l with
  | nil => intro alpha beta; rfl
  | cons x rest ih =>
    intro alpha beta
    obtain ⟨mx, cx⟩ := x
    simp only [qsRecursedLoop]
    by_cases h1 : beta ≤ -(quiescenceSearch cx (-beta) (-alpha))
    · rw [if_pos h1]
      rfl
    · rw [if_neg h1]
      by_cases h2 : alpha < -(quiescenceSearch cx (-beta) (-alpha))
      · rw [if_pos h2]
        simp only [List.map_cons, List.length_cons, List.take_succ_cons]
        exact congrArg (mx :: ·) (ih _ beta)
      · rw [if_neg h2]
        simp only [List.map_cons, List.length_cons, List.take_succ_cons]
        exact congrArg (mx :: ·) (ih alpha beta)

/-- Claim C9 (confirmed): if the standing static evaluation meets or
exceeds `beta`, `quiescenceSearch` returns `beta` immediately and recurses
into no move at all; otherwise every move it recurses into is a capture
(has a captured piece), and the sequence of moves it recurses into is an
initial run of the capture moves ordered by the same `orderMoves`
heuristic as the main search (it stops early only at a beta cutoff). -/
theorem c9_quiescence_structure (t : GTree) (alpha beta : ℤ) :
    (beta ≤ t.eval → quiescenceSearch t alpha beta = beta ∧ qsRecursed t alpha beta = []) ∧
    (t.eval < beta →
      (∀ m ∈ qsRecursed t alpha beta, m.captured.isSome = true) ∧
      qsRecursed t alpha beta
        = ((orderMoves (t.moves.filter fun mc => mc.1.captured.isSome)).map Prod.fst).take
            (qsRecursed t alpha beta).length) := by
  constructor
  · intro h
    constructor
    · unfold quiescenceSearch
      simp [h]
    · unfold qsRecursed
      simp [h]
  · intro h
    have hno : ¬ beta ≤ t.eval := not_le.mpr h
    constructor
    · intro m hm
      unfold qsRecursed at hm
      rw [if_neg hno] at hm
      refine qsRecursedLoop_captures _ _ _ ?_ m hm
      intro mc hmc
      have hmem : mc ∈ t.moves.filter (fun mc => mc.1.captured.isSome) :=
        (orderMoves_perm _).mem_iff.mp hmc
      exact (List.mem_filter.mp hmem).2
    · unfold qsRecursed
      rw [if_neg hno]
      exact qsRecursedLoop_shape _ _ _

/-- Witness for claim C9: a node whose standing evaluation 100 meets the
bound 50 (immediate return), and a node below the bound with one capture
and one quiet move. -/
theorem c9_quiescence_structure_witness :
    (quiescenceSearch c9HighTree 0 50 = 50 ∧ qsRecursed c9HighTree 0 50 = []) ∧
    ((∀ m ∈ qsRecursed c9CapTree 0 50, m.captured.isSome = true) ∧
      qsRecursed c9CapTree 0 50
        = ((orderMoves (c9CapTree.moves.filter fun mc => mc.1.captured.isSome)).map Prod.fst).take
            (qsRecursed c9CapTree 0 50).length) :=
  ⟨(c9_quiescence_structure c9HighTree 0 50).1 (by decide),
   (c9_quiescence_structure c9CapTree 0 50).2 (by decide)⟩

/-! ## Unfolding lemmas for the minimax loop -/

lemma mmLoop_cons_max (f : GTree → Score → Score → List GMove → List GMove × Score)
    (m : GMove) (c : GTree) (rest : List (GMove × GTree)) (alpha beta : Score)
    (line : List GMove) (best : List GMove × Score) :
    mmLoop true f ((m, c) :: rest) alpha beta line best
      = if beta ≤ max alpha (f c alpha beta (line ++ [m])).2
        then (if best.2 < (f c alpha beta (line ++ [m])).2 then f c alpha beta (line ++ [m]) else best)
        else mmLoop true f rest (max alpha (f c alpha beta (line ++ [m])).2) beta line
          (if best.2 < (f c alpha beta (line ++ [m])).2 then f c alpha beta (line ++ [m]) else best) :=
  rfl

lemma mmLoop_cons_min (f : GTree → Score → Score → List GMove → List GMove × Score)
    (m : GMove) (c : GTree) (rest : List (GMove × GTree)) (alpha beta : Score)
    (line : List GMove) (best : List GMove × Score) :
    mmLoop false f ((m, c) :: rest) alpha beta line best
      = if min beta (f c alpha beta (line ++ [m])).2 ≤ alpha
        then (if (f c alpha beta (line ++ [m])).2 < best.2 then f c alpha beta (line ++ [m]) else best)
        else mmLoop false f rest alpha (min beta (f c alpha beta (line ++ [m])).2) line
          (if (f c alpha beta (line ++ [m])).2 < best.2 then f c alpha beta (line ++ [m]) else best) :=
  rfl

lemma cntLoop_cons_max (f : GTree → Score → Score → List GMove → List GMove × Score)
    (g : GTree → Score → Score → List GMove → ℕ)
    (m : GMove) (c : GTree) (rest : List (GMove × GTree)) (alpha beta : Score)
    (line : List GMove) (best : List GMove × Score) :
    cntLoop true f g ((m, c) :: rest) alpha beta line best
      = if beta ≤ max alpha (f c alpha beta (line ++ [m])).2
        then g c alpha beta (line ++ [m])
        else g c alpha beta (line ++ [m])
          + cntLoop true f g rest (max alpha (f c alpha beta (line ++ [m])).2) beta line
            (if best.2 < (f c alpha beta (line ++ [m])).2 then f c alpha beta (line ++ [m]) else best) :=
  rfl

lemma cntLoop_cons_min (f : GTree → Score → Score → List GMove → List GMove × Score)
    (g : GTree → Score → Score → List GMove → ℕ)
    (m : GMove) (c : GTree) (rest : List (GMove × GTree)) (alpha beta : Score)
    (line : List GMove) (best : List GMove × Score) :
    cntLoop false f g ((m, c) :: rest) alpha beta line best
      = if min beta (f c alpha beta (line ++ [m])).2 ≤ alpha
        then g c alpha beta (line ++ [m])
        else g c alpha beta (line ++ [m])
          + cntLoop false f g rest alpha (min beta (f c alpha beta (line ++ [m])).2) line
            (if (f c alpha beta (line ++ [m])).2 < best.2 then f c alpha beta (line ++ [m]) else best) :=
  rfl

/-! ## Claim C3: no node counter exists; termination is by depth -/

lemma mmLoop_line_length (isMax : Bool)
    (f : GTree → Score → Score → List GMove → List GMove × Score) (k : ℕ)
    (hf : ∀ c a b l, ((f c a b l).1).length ≤ l.length + k) :
    ∀ (ch : List (GMove × GTree)) (alpha beta : Score) (line : List GMove)
      (best : List GMove × Score),
      best.1.length ≤ line.length + k + 1 →
      ((mmLoop isMax f ch alpha beta line best).1).length ≤ line.length + k + 1 := by
  intro ch
  induction ch with
  | nil => intro alpha beta line best hb; exact hb
  | cons x rest ih =>
    intro alpha beta line best hb
    obtain ⟨m, c⟩ := x
    have hr : ((f c alpha beta (line ++ [m])).1).length ≤ line.length + k + 1 := by
      have h := hf c alpha beta (line ++ [m])
      simp only [List.length_append, List.length_cons, List.length_nil] at h
      omega
    have hbest' :
        ((if best.2 < (f c alpha beta (line ++ [m])).2 then f c alpha beta (line ++ [m]) else best)).1.length
          ≤ line.length + k + 1 := by
      split
      · exact hr
      · exact hb
    have hbest'' :
        ((if (f c alpha beta (line ++ [m])).2 < best.2 then f c alpha beta (line ++ [m]) else best)).1.length
          ≤ line.length + k + 1 := by
      split
      · exact hr
      · exact hb
    cases isMax with
    | true =>
      rw [mmLoop_cons_max]
      split
      · exact hbest'
      · exact ih _ _ line _ hbest'
    | false =>
      rw [mmLoop_cons_min]
      split
      · exact hbest''
      · exact ih _ _ line _ hbest''

lemma minimax_line_length (wo : Bool) :
    ∀ (d : ℕ) (t : GTree) (alpha beta : Score) (isMax : Bool) (line : List GMove),
      ((minimax wo d t alpha beta isMax line).1).length ≤ line.length + d := by
  intro d
  induction d with
  | zero =>
    intro t alpha beta isMax line
    simp [minimax]
  | succ d ih =>
    intro t alpha beta isMax line
    simp only [minimax]
    split
    · simp
    · refine mmLoop_line_length isMax _ d (fun c a b l => ih c a b (!isMax) l) _ alpha beta line _ ?_
      show line.length ≤ line.length + d + 1
      omega

/-- Claim C3 (amended): the search maintains no node counter and no
node-count ceiling — every worker result carries the hard-coded field
`nodesSearched: 0`, and termination is guaranteed by the depth parameter
alone: the principal variation returned by `minimax` never extends the
incoming line by more than `d` moves. -/
theorem c3_no_counter_depth_bounded :
    (∀ (id : ℕ) (moves : List GMove) (score : ℤ) (fen : String),
        (mkWorkerResult id moves score fen).nodesSearched = 0) ∧
    (∀ (wo : Bool) (d : ℕ) (t : GTree) (alpha beta : Score) (isMax : Bool) (line : List GMove),
        ((minimax wo d t alpha beta isMax line).1).length ≤ line.length + d) :=
  ⟨fun _ _ _ _ => rfl,
   fun wo d t alpha beta isMax line => minimax_line_length wo d t alpha beta isMax line⟩

lemma minimax_single_child (wo : Bool) (d : ℕ) (sub : GTree) (alpha beta : Score)
    (isMax : Bool) (line : List GMove) (res : List GMove)
    (hr : minimax wo d sub alpha beta (!isMax) (line ++ [quietMove]) = (res, Score.val 7)) :
    minimax wo (d + 1) (GTree.node 5 false false [(quietMove, sub)]) alpha beta isMax line
      = (res, Score.val 7) := by
  simp only [minimax]
  rw [if_neg (by simp [GTree.gameOver])]
  simp only [GTree.moves]
  have hord : (if wo then orderMoves [(quietMove, sub)] else [(quietMove, sub)])
      = [(quietMove, sub)] := by
    cases wo <;> rfl
  rw [hord]
  have hw : (if 6 < d + 1 then min 20 ([(quietMove, sub)] : List (GMove × GTree)).length
      else ([(quietMove, sub)] : List (GMove × GTree)).length) = 1 := by
    simp
  rw [hw]
  rw [show List.take 1 [(quietMove, sub)] = [(quietMove, sub)] from rfl]
  cases isMax with
  | true =>
    rw [mmLoop_cons_max, hr]
    have h1 : Score.negInf < Score.val 7 := by decide
    simp [mmLoop, h1]
  | false =>
    rw [mmLoop_cons_min, hr]
    have h2 : Score.val 7 < Score.posInf := by decide
    simp [mmLoop, h2]

lemma minimax_chain (wo : Bool) :
    ∀ (n : ℕ) (alpha beta : Score) (isMax : Bool) (line : List GMove),
      minimax wo (n + 1) (chainT (n + 1)) alpha beta isMax line
        = (line ++ List.replicate (n + 1) quietMove, Score.val 7) := by
  intro n
  induction n with
  | zero =>
    intro alpha beta isMax line
    have hr : minimax wo 0 (chainT 0) alpha beta (!isMax) (line ++ [quietMove])
        = (line ++ [quietMove], Score.val 7) := by
      simp [minimax, chainT, GTree.eval]
    have h := minimax_single_child wo 0 (chainT 0) alpha beta isMax line (line ++ [quietMove]) hr
    simpa using h
  | succ k ih =>
    intro alpha beta isMax line
    have hr := ih alpha beta (!isMax) (line ++ [quietMove])
    rw [show (line ++ [quietMove]) ++ List.replicate (k + 1) quietMove
        = line ++ List.replicate (k + 2) quietMove from by
      rw [List.append_assoc]
      rfl] at hr
    exact minimax_single_child wo (k + 1) (chainT (k + 1)) alpha beta isMax line _ hr

lemma countNodes_single_child (wo : Bool) (d : ℕ) (sub : GTree) (alpha beta : Score)
    (isMax : Bool) (line : List GMove) (k : ℕ)
    (hg : countNodes wo d sub alpha beta (!isMax) (line ++ [quietMove]) = k) :
    countNodes wo (d + 1) (GTree.node 5 false false [(quietMove, sub)]) alpha beta isMax line
      = 1 + k := by
  simp only [countNodes]
  rw [if_neg (by simp [GTree.gameOver])]
  simp only [GTree.moves]
  have hord : (if wo then orderMoves [(quietMove, sub)] else [(quietMove, sub)])
      = [(quietMove, sub)] := by
    cases wo <;> rfl
  rw [hord]
  have hw : (if 6 < d + 1 then min 20 ([(quietMove, sub)] : List (GMove × GTree)).length
      else ([(quietMove, sub)] : List (GMove × GTree)).length) = 1 := by
    simp
  rw [hw]
  rw [show List.take 1 [(quietMove, sub)] = [(quietMove, sub)] from rfl]
  cases isMax with
  | true =>
    rw [cntLoop_cons_max, hg]
    split
    · rfl
    · show 1 + (k + cntLoop true _ _ [] _ _ _ _) = 1 + k
      rfl
  | false =>
    rw [cntLoop_cons_min, hg]
    split
    · rfl
    · show 1 + (k + cntLoop false _ _ [] _ _ _ _) = 1 + k
      rfl

lemma countNodes_chain (wo : Bool) :
    ∀ (n : ℕ) (alpha beta : Score) (isMax : Bool) (line : List GMove),
      countNodes wo n (chainT n) alpha beta isMax line = n + 1 := by
  intro n
  induction n with
  | zero => intro alpha beta isMax line; rfl
  | succ k ih =>
    intro alpha beta isMax line
    have h : countNodes wo (k + 1) (chainT (k + 1)) alpha beta isMax line = 1 + (k + 1) :=
      countNodes_single_child wo k (chainT k) alpha beta isMax line (k + 1)
        (ih alpha beta (!isMax) (line ++ [quietMove]))
    rw [h]
    omega

/-- Claim C3 counterexample: no node ceiling exists.  For every candidate
ceiling `C` there is a position and depth — the linear tree of height
`C + 1` searched at depth `C + 1` — whose search visits more than `C`
nodes yet still returns a non-empty line and a score different from the
root's static evaluation, i.e. it keeps recursing instead of degrading to
the static evaluation with an empty line. -/
theorem c3_no_node_ceiling :
    ¬ ∃ C : ℕ, ∀ (t : GTree) (d : ℕ),
        C < countNodes true d t .negInf .posInf true [] →
        (minimax true d t .negInf .posInf true []).1 = []
          ∧ (minimax true d t .negInf .posInf true []).2 = Score.val t.eval := by
  rintro ⟨C, hC⟩
  have hcnt := countNodes_chain true (C + 1) .negInf .posInf true []
  have hmm := minimax_chain true C .negInf .posInf true []
  have hit := hC (chainT (C + 1)) (C + 1) (by rw [hcnt]; omega)
  rw [hmm] at hit
  have hline := hit.1
  simp only [List.nil_append] at hline
  exact absurd hline (by simp)

/-! ## Claim C2: move ordering, the width cap and the search result

The fail-soft alpha-beta trichotomy: for any window `alpha < beta`, the
score `s` returned by the loop satisfies `s ≤ alpha → V ≤ s`,
`alpha < s < beta → s = V` and `beta ≤ s → s ≤ V`, where `V` is the plain
minimax value over the children actually iterated.  With the full window
at the root this gives `s = V`, and `V` only depends on the *multiset* of
children, so when the width cap does not bind (depth ≤ 6) the `orderMoves`
permutation cannot change the root score.  The counterexample shows the
cap (depth > 6, more than 20 legal moves) does change both the move and
the score. -/

lemma bestScore_max (r best : List GMove × Score) :
    (if best.2 < r.2 then r else best).2 = max best.2 r.2 := by
  split
  · rename_i h
    exact (max_eq_right (le_of_lt h)).symm
  · rename_i h
    exact (max_eq_left (le_of_not_lt h)).symm

lemma bestScore_min (r best : List GMove × Score) :
    (if r.2 < best.2 then r else best).2 = min best.2 r.2 := by
  split
  · rename_i h
    exact (min_eq_right (le_of_lt h)).symm
  · rename_i h
    exact (min_eq_left (le_of_not_lt h)).symm

lemma mmLoopMax_factor (f : GTree → Score → Score → List GMove → List GMove × Score) :
    ∀ (ch : List (GMove × GTree)) (alpha beta : Score) (line : List GMove)
      (best : List GMove × Score),
      (mmLoop true f ch alpha beta line best).2
        = max best.2 (mmLoop true f ch alpha beta line (line, Score.negInf)).2 := by
  intro ch
  induction ch with
  | nil =>
    intro alpha beta line best
    show best.2 = max best.2 Score.negInf
    exact (max_eq_left (Score.negInf_le _)).symm
  | cons x rest ih =>
    intro alpha beta line best
    obtain ⟨m, c⟩ := x
    rw [mmLoop_cons_max, mmLoop_cons_max]
    have hni : ∀ y : Score, max Score.negInf y = y := fun y => max_eq_right (Score.negInf_le y)
    by_cases hbr : beta ≤ max alpha (f c alpha beta (line ++ [m])).2
    · rw [if_pos hbr, if_pos hbr, bestScore_max, bestScore_max]
      show max best.2 _ = max best.2 (max Score.negInf _)
      rw [hni]
    · rw [if_neg hbr, if_neg hbr, ih, ih _ _ _
        (if ((line, Score.negInf) : List GMove × Score).2 < (f c alpha beta (line ++ [m])).2
         then f c alpha beta (line ++ [m]) else (line, Score.negInf)),
        bestScore_max, bestScore_max]
      show max (max best.2 _) _ = max best.2 (max (max Score.negInf _) _)
      rw [hni, max_assoc]

lemma mmLoopMin_factor (f : GTree → Score → Score → List GMove → List GMove × Score) :
    ∀ (ch : List (GMove × GTree)) (alpha beta : Score) (line : List GMove)
      (best : List GMove × Score),
      (mmLoop false f ch alpha beta line best).2
        = min best.2 (mmLoop false f ch alpha beta line (line, Score.posInf)).2 := by
  intro ch
  induction ch with
  | nil =>
    intro alpha beta line best
    show best.2 = min best.2 Score.posInf
    exact (min_eq_left (Score.le_posInf _)).symm
  | cons x rest ih =>
    intro alpha beta line best
    obtain ⟨m, c⟩ := x
    rw [mmLoop_cons_min, mmLoop_cons_min]
    have hpi : ∀ y : Score, min Score.posInf y = y := fun y => min_eq_right (Score.le_posInf y)
    by_cases hbr : min beta (f c alpha beta (line ++ [m])).2 ≤ alpha
    · rw [if_pos hbr, if_pos hbr, bestScore_min, bestScore_min]
      show min best.2 _ = min best.2 (min Score.posInf _)
      rw [hpi]
    · rw [if_neg hbr, if_neg hbr, ih, ih _ _ _
        (if (f c alpha beta (line ++ [m])).2 < ((line, Score.posInf) : List GMove × Score).2
         then f c alpha beta (line ++ [m]) else (line, Score.posInf)),
        bestScore_min, bestScore_min]
      show min (min best.2 _) _ = min best.2 (min (min Score.posInf _) _)
      rw [hpi, min_assoc]

lemma listValMax_perm {l l' : List Score} (h : l.Perm l') : listValMax l = listValMax l' := by
  induction h with
  | nil => rfl
  | cons x _ ih =>
    exact congrArg (fun y => max x y) ih
  | swap x y t =>
    show max y (max x _) = max x (max y _)
    rw [max_left_comm]
  | trans _ _ ih1 ih2 => exact ih1.trans ih2

lemma listValMin_perm {l l' : List Score} (h : l.Perm l') : listValMin l = listValMin l' := by
  induction h with
  | nil => rfl
  | cons x _ ih =>
    exact congrArg (fun y => min x y) ih
  | swap x y t =>
    show min y (min x _) = min x (min y _)
    rw [min_left_comm]
  | trans _ _ ih1 ih2 => exact ih1.trans ih2

lemma mmLoopMax_tri (f : GTree → Score → Score → List GMove → List GMove × Score)
    (v : GTree → Score) :
    ∀ (ch : List (GMove × GTree)),
      (∀ mc ∈ ch, ∀ (a b : Score) (l : List GMove), a < b →
        ((f mc.2 a b l).2 ≤ a → v mc.2 ≤ (f mc.2 a b l).2) ∧
        (a < (f mc.2 a b l).2 → (f mc.2 a b l).2 < b → (f mc.2 a b l).2 = v mc.2) ∧
        (b ≤ (f mc.2 a b l).2 → (f mc.2 a b l).2 ≤ v mc.2)) →
      ∀ (alpha beta : Score) (line : List GMove), alpha < beta →
        ((mmLoop true f ch alpha beta line (line, Score.negInf)).2 ≤ alpha →
            listValMax (ch.map fun mc => v mc.2)
              ≤ (mmLoop true f ch alpha beta line (line, Score.negInf)).2) ∧
        (alpha < (mmLoop true f ch alpha beta line (line, Score.negInf)).2 →
            (mmLoop true f ch alpha beta line (line, Score.negInf)).2 < beta →
            (mmLoop true f ch alpha beta line (line, Score.negInf)).2
              = listValMax (ch.map fun mc => v mc.2)) ∧
        (beta ≤ (mmLoop true f ch alpha beta line (line, Score.negInf)).2 →
            (mmLoop true f ch alpha beta line (line, Score.negInf)).2
              ≤ listValMax (ch.map fun mc => v mc.2)) := by
  intro ch
  induction ch with
  | nil =>
    intro _ alpha beta line hab
    refine ⟨fun _ => le_refl _, ?_, ?_⟩
    · intro h1 _
      exact absurd h1 (not_lt.mpr (Score.negInf_le alpha))
    · intro hb
      have hbeq : beta = Score.negInf := Score.le_negInf hb
      rw [hbeq] at hab
      exact absurd hab (not_lt.mpr (Score.negInf_le alpha))
  | cons x rest ih =>
    intro hf alpha beta line hab
    obtain ⟨m, c⟩ := x
    obtain ⟨hf1, hf2, hf3⟩ := hf (m, c) (List.mem_cons_self _ _) alpha beta (line ++ [m]) hab
    rw [mmLoop_cons_max]
    set r2 := (f c alpha beta (line ++ [m])).2 with hr2def
    have hVcons : listValMax ((((m, c) :: rest)).map fun mc => v mc.2)
        = max (v c) (listValMax (rest.map fun mc => v mc.2)) := rfl
    rw [hVcons]
    set Vr := listValMax (rest.map fun mc => v mc.2) with hVrdef
    by_cases hbr : beta ≤ max alpha r2
    · rw [if_pos hbr]
      have hs2 : (if ((line, Score.negInf) : List GMove × Score).2 < r2
          then f c alpha beta (line ++ [m]) else ((line, Score.negInf) : List GMove × Score)).2
          = r2 := by
        rw [bestScore_max]
        exact max_eq_right (Score.negInf_le _)
      rw [hs2]
      have hbr2 : beta ≤ r2 := by
        rcases le_max_iff.mp hbr with h | h
        · exact absurd (lt_of_lt_of_le hab h) (lt_irrefl alpha)
        · exact h
      refine ⟨?_, ?_, ?_⟩
      · intro h1
        exact absurd (lt_of_lt_of_le hab (le_trans hbr2 h1)) (lt_irrefl alpha)
      · intro _ h2
        exact absurd (lt_of_le_of_lt hbr2 h2) (lt_irrefl beta)
      · intro _
        exact le_trans (hf3 hbr2) (le_max_left _ _)
    · rw [if_neg hbr]
      have halpha' : max alpha r2 < beta := not_le.mp hbr
      obtain ⟨ih1, ih2, ih3⟩ :=
        ih (fun mc hmc => hf mc (List.mem_cons_of_mem _ hmc)) (max alpha r2) beta line halpha'
      have hfac := mmLoopMax_factor f rest (max alpha r2) beta line
        (if ((line, Score.negInf) : List GMove × Score).2 < r2
         then f c alpha beta (line ++ [m]) else (line, Score.negInf))
      rw [hfac, bestScore_max]
      rw [show max ((line, Score.negInf) : List GMove × Score).2 r2 = r2 from
        max_eq_right (Score.negInf_le _)]
      set X := (mmLoop true f rest (max alpha r2) beta line (line, Score.negInf)).2 with hXdef
      refine ⟨?_, ?_, ?_⟩
      · intro h1
        have hr2a : r2 ≤ alpha := le_trans (le_max_left _ _) h1
        have hXa : X ≤ alpha := le_trans (le_max_right _ _) h1
        have hvc : v c ≤ r2 := hf1 hr2a
        have hVrX : Vr ≤ X := ih1 (le_trans hXa (le_max_left _ _))
        exact max_le (le_trans hvc (le_max_left _ _)) (le_trans hVrX (le_max_right _ _))
      · intro h1 h2
        apply le_antisymm
        · rcases max_choice r2 X with hc | hc
          · rw [hc] at h1 h2 ⊢
            rw [hf2 h1 h2]
            exact le_max_left _ _
          · rw [hc] at h1 h2 ⊢
            by_cases hXa' : X ≤ max alpha r2
            · have hXr2 : X ≤ r2 := by
                rcases le_max_iff.mp hXa' with h | h
                · exact absurd h1 (not_lt.mpr h)
                · exact h
              have hr2X : r2 ≤ X := le_trans (le_max_left r2 X) (le_of_eq hc)
              have hXeq : X = r2 := le_antisymm hXr2 hr2X
              rw [hXeq] at h1 h2 ⊢
              rw [hf2 h1 h2]
              exact le_max_left _ _
            · rw [ih2 (not_le.mp hXa') h2]
              exact le_max_right _ _
        · apply max_le
          · by_cases hra : r2 ≤ alpha
            · exact le_trans (hf1 hra) (le_max_left _ _)
            · have hr2b : r2 < beta := lt_of_le_of_lt (le_max_left _ _) h2
              rw [← hf2 (not_le.mp hra) hr2b]
              exact le_max_left _ _
          · by_cases hXa' : X ≤ max alpha r2
            · exact le_trans (ih1 hXa') (le_max_right _ _)
            · have hXb : X < beta := lt_of_le_of_lt (le_max_right _ _) h2
              rw [← ih2 (not_le.mp hXa') hXb]
              exact le_max_right _ _
      · intro h1
        rcases max_choice r2 X with hc | hc
        · have hb2 : beta ≤ r2 := hc ▸ h1
          rw [hc]
          exact le_trans (hf3 hb2) (le_max_left _ _)
        · have hbX : beta ≤ X := hc ▸ h1
          rw [hc]
          exact le_trans (ih3 hbX) (le_max_right _ _)

lemma mmLoopMin_tri (f : GTree → Score → Score → List GMove → List GMove × Score)
    (v : GTree → Score) :
    ∀ (ch : List (GMove × GTree)),
      (∀ mc ∈ ch, ∀ (a b : Score) (l : List GMove), a < b →
        ((f mc.2 a b l).2 ≤ a → v mc.2 ≤ (f mc.2 a b l).2) ∧
        (a < (f mc.2 a b l).2 → (f mc.2 a b l).2 < b → (f mc.2 a b l).2 = v mc.2) ∧
        (b ≤ (f mc.2 a b l).2 → (f mc.2 a b l).2 ≤ v mc.2)) →
      ∀ (alpha beta : Score) (line : List GMove), alpha < beta →
        ((mmLoop false f ch alpha beta line (line, Score.posInf)).2 ≤ alpha →
            listValMin (ch.map fun mc => v mc.2)
              ≤ (mmLoop false f ch alpha beta line (line, Score.posInf)).2) ∧
        (alpha < (mmLoop false f ch alpha beta line (line, Score.posInf)).2 →
            (mmLoop false f ch alpha beta line (line, Score.posInf)).2 < beta →
            (mmLoop false f ch alpha beta line (line, Score.posInf)).2
              = listValMin (ch.map fun mc => v mc.2)) ∧
        (beta ≤ (mmLoop false f ch alpha beta line (line, Score.posInf)).2 →
            (mmLoop false f ch alpha beta line (line, Score.posInf)).2
              ≤ listValMin (ch.map fun mc => v mc.2)) := by
  intro ch
  induction ch with
  | nil =>
    intro _ alpha beta line hab
    refine ⟨?_, ?_, fun _ => le_refl _⟩
    · intro h1
      have haeq : alpha = Score.posInf := Score.posInf_le h1
      rw [haeq] at hab
      exact absurd hab (not_lt.mpr (Score.le_posInf beta))
    · intro _ h2
      exact absurd h2 (not_lt.mpr (Score.le_posInf beta))
  | cons x rest ih =>
    intro hf alpha beta line hab
    obtain ⟨m, c⟩ := x
    obtain ⟨hf1, hf2, hf3⟩ := hf (m, c) (List.mem_cons_self _ _) alpha beta (line ++ [m]) hab
    rw [mmLoop_cons_min]
    set r2 := (f c alpha beta (line ++ [m])).2 with hr2def
    have hVcons : listValMin ((((m, c) :: rest)).map fun mc => v mc.2)
        = min (v c) (listValMin (rest.map fun mc => v mc.2)) := rfl
    rw [hVcons]
    set Vr := listValMin (rest.map fun mc => v mc.2) with hVrdef
    by_cases hbr : min beta r2 ≤ alpha
    · rw [if_pos hbr]
      have hs2 : (if r2 < ((line, Score.posInf) : List GMove × Score).2
          then f c alpha beta (line ++ [m]) else ((line, Score.posInf) : List GMove × Score)).2
          = r2 := by
        rw [bestScore_min]
        exact min_eq_right (Score.le_posInf _)
      rw [hs2]
      have hra : r2 ≤ alpha := by
        rcases min_le_iff.mp hbr with h | h
        · exact absurd (lt_of_lt_of_le hab h) (lt_irrefl alpha)
        · exact h
      refine ⟨?_, ?_, ?_⟩
      · intro _
        exact le_trans (min_le_left _ _) (hf1 hra)
      · intro h1 _
        exact absurd (lt_of_lt_of_le h1 hra) (lt_irrefl alpha)
      · intro h1
        exact absurd (lt_of_lt_of_le hab (le_trans h1 hra)) (lt_irrefl alpha)
    · rw [if_neg hbr]
      have hbeta' : alpha < min beta r2 := not_le.mp hbr
      obtain ⟨ih1, ih2, ih3⟩ :=
        ih (fun mc hmc => hf mc (List.mem_cons_of_mem _ hmc)) alpha (min beta r2) line hbeta'
      have hfac := mmLoopMin_factor f rest alpha (min beta r2) line
        (if r2 < ((line, Score.posInf) : List GMove × Score).2
         then f c alpha beta (line ++ [m]) else (line, Score.posInf))
      rw [hfac, bestScore_min]
      rw [show min ((line, Score.posInf) : List GMove × Score).2 r2 = r2 from
        min_eq_right (Score.le_posInf _)]
      set X := (mmLoop false f rest alpha (min beta r2) line (line, Score.posInf)).2 with hXdef
      refine ⟨?_, ?_, ?_⟩
      · intro h1
        rcases min_choice r2 X with hc | hc
        · have hra : r2 ≤ alpha := hc ▸ h1
          rw [hc]
          exact le_trans (min_le_left _ _) (hf1 hra)
        · have hXa : X ≤ alpha := hc ▸ h1
          rw [hc]
          exact le_trans (min_le_right _ _) (ih1 hXa)
      · intro h1 h2
        apply le_antisymm
        · apply le_min
          · by_cases hrb : beta ≤ r2
            · exact le_trans (min_le_left _ _) (hf3 hrb)
            · have har2 : alpha < r2 := lt_of_lt_of_le h1 (min_le_left _ _)
              rw [← hf2 har2 (not_le.mp hrb)]
              exact min_le_left _ _
          · by_cases hXb : min beta r2 ≤ X
            · exact le_trans (min_le_right _ _) (ih3 hXb)
            · have haX : alpha < X := lt_of_lt_of_le h1 (min_le_right _ _)
              rw [← ih2 haX (not_le.mp hXb)]
              exact min_le_right _ _
        · rcases min_choice r2 X with hc | hc
          · rw [hc] at h1 h2 ⊢
            rw [hf2 h1 h2]
            exact min_le_left _ _
          · rw [hc] at h1 h2 ⊢
            by_cases hXb' : min beta r2 ≤ X
            · have hr2X : r2 ≤ X := by
                rcases min_le_iff.mp hXb' with h | h
                · exact absurd h2 (not_lt.mpr h)
                · exact h
              have hXr2 : X ≤ r2 := le_trans (le_of_eq hc.symm) (min_le_left r2 X)
              have hXeq : X = r2 := le_antisymm hXr2 hr2X
              rw [hXeq] at h1 h2 ⊢
              rw [hf2 h1 h2]
              exact min_le_left _ _
            · rw [ih2 h1 (not_le.mp hXb')]
              exact min_le_right _ _
      · intro h1
        have hbr2 : beta ≤ r2 := le_trans h1 (min_le_left _ _)
        have hbX : beta ≤ X := le_trans h1 (min_le_right _ _)
        have hbX' : min beta r2 ≤ X := le_trans (min_le_left _ _) hbX
        exact le_min (le_trans (min_le_left _ _) (hf3 hbr2))
          (le_trans (min_le_right _ _) (ih3 hbX'))

lemma minimax_tri (wo : Bool) :
    ∀ (d : ℕ), d ≤ 6 → ∀ (t : GTree) (isMax : Bool) (alpha beta : Score) (line : List GMove),
      alpha < beta →
      ((minimax wo d t alpha beta isMax line).2 ≤ alpha →
          mmVal d t isMax ≤ (minimax wo d t alpha beta isMax line).2) ∧
      (alpha < (minimax wo d t alpha beta isMax line).2 →
          (minimax wo d t alpha beta isMax line).2 < beta →
          (minimax wo d t alpha beta isMax line).2 = mmVal d t isMax) ∧
      (beta ≤ (minimax wo d t alpha beta isMax line).2 →
          (minimax wo d t alpha beta isMax line).2 ≤ mmVal d t isMax) := by
  intro d
  induction d with
  | zero =>
    intro _ t isMax alpha beta line hab
    exact ⟨fun _ => le_refl _, fun _ _ => rfl, fun _ => le_refl _⟩
  | succ d ih =>
    intro hd t isMax alpha beta line hab
    have hd' : d ≤ 6 := by omega
    by_cases hgo : t.gameOver = true
    · rw [show minimax wo (d + 1) t alpha beta isMax line = (line, Score.val t.eval) from by
        simp [minimax, hgo]]
      rw [show mmVal (d + 1) t isMax = Score.val t.eval from by simp [mmVal, hgo]]
      exact ⟨fun _ => le_refl _, fun _ _ => rfl, fun _ => le_refl _⟩
    · have hmm : minimax wo (d + 1) t alpha beta isMax line
          = mmLoop isMax (fun c a b l => minimax wo d c a b (!isMax) l)
              (if wo then orderMoves t.moves else t.moves) alpha beta line
              (line, if isMax then Score.negInf else Score.posInf) := by
        simp only [minimax]
        rw [if_neg hgo]
        have hwidth : (if 6 < d + 1
              then min 20 (if wo then orderMoves t.moves else t.moves).length
              else (if wo then orderMoves t.moves else t.moves).length)
            = (if wo then orderMoves t.moves else t.moves).length := by
          rw [if_neg (by omega)]
        rw [hwidth, List.take_length]
      have hperm : (if wo then orderMoves t.moves else t.moves).Perm t.moves := by
        split
        · exact orderMoves_perm _
        · exact List.Perm.refl _
      cases isMax with
      | true =>
        rw [hmm]
        have hVeq : mmVal (d + 1) t true
            = listValMax ((if wo then orderMoves t.moves else t.moves).map
                fun mc => mmVal d mc.2 (!true)) := by
          rw [show mmVal (d + 1) t true
              = listValMax (t.moves.map fun mc => mmVal d mc.2 (!true)) from by
            simp [mmVal, hgo]]
          exact (listValMax_perm (hperm.map _)).symm
        rw [hVeq]
        exact mmLoopMax_tri (fun c a b l => minimax wo d c a b (!true) l)
          (fun c => mmVal d c (!true))
          (if wo then orderMoves t.moves else t.moves)
          (fun mc _ a b l hab' => ih hd' mc.2 (!true) a b l hab')
          alpha beta line hab
      | false =>
        rw [hmm]
        have hVeq : mmVal (d + 1) t false
            = listValMin ((if wo then orderMoves t.moves else t.moves).map
                fun mc => mmVal d mc.2 (!false)) := by
          rw [show mmVal (d + 1) t false
              = listValMin (t.moves.map fun mc => mmVal d mc.2 (!false)) from by
            simp [mmVal, hgo]]
          exact (listValMin_perm (hperm.map _)).symm
        rw [hVeq]
        exact mmLoopMin_tri (fun c a b l => minimax wo d c a b (!false) l)
          (fun c => mmVal d c (!false))
          (if wo then orderMoves t.moves else t.moves)
          (fun mc _ a b l hab' => ih hd' mc.2 (!false) a b l hab')
          alpha beta line hab

lemma minimax_full_window (wo : Bool) (d : ℕ) (hd : d ≤ 6) (t : GTree) (isMax : Bool)
    (line : List GMove) :
    (minimax wo d t .negInf .posInf isMax line).2 = mmVal d t isMax := by
  obtain ⟨h1, h2, h3⟩ :=
    minimax_tri wo d hd t isMax .negInf .posInf line Score.negInf_lt_posInf
  by_cases ha : (minimax wo d t .negInf .posInf isMax line).2 ≤ Score.negInf
  · have hs := Score.le_negInf ha
    have hV := h1 ha
    rw [hs] at hV ⊢
    exact (Score.le_negInf hV).symm
  · by_cases hb : (minimax wo d t .negInf .posInf isMax line).2 < Score.posInf
    · exact h2 (not_le.mp ha) hb
    · have hs := Score.posInf_le (not_lt.mp hb)
      have hV := h3 (by rw [hs])
      rw [hs] at hV ⊢
      exact (Score.posInf_le hV).symm

/-- Claim C2 (amended): move ordering is score-neutral exactly when the
top-20 width cap cannot bind, i.e. at depths ≤ 6 (the cap applies only at
depth > 6): the root score returned by `minimax` with `orderMoves` enabled
equals the root score with the moves in the rules engine's original
enumeration order, for every tree and either maximizing role.  (The
returned best *line* may still differ between equally-scored moves, and
by the counterexample the cap at depth > 6 can change both move and
score.) -/
theorem c2_ordering_score_neutral_below_width_cap (d : ℕ) (hd : d ≤ 6) (t : GTree)
    (isMax : Bool) :
    (minimax true d t .negInf .posInf isMax []).2
      = (minimax false d t .negInf .posInf isMax []).2 := by
  rw [minimax_full_window true d hd t isMax [], minimax_full_window false d hd t isMax []]

/-- Witness for the claim C2 amendment on a concrete two-move tree. -/
theorem c2_ordering_score_neutral_below_width_cap_witness :
    (2 : ℕ) ≤ 6 ∧
    (minimax true 2 c2SmallTree .negInf .posInf true []).2
      = (minimax false 2 c2SmallTree .negInf .posInf true []).2 :=
  ⟨by decide, c2_ordering_score_neutral_below_width_cap 2 (by decide) c2SmallTree true⟩

/-- Claim C2 counterexample: at depth 7 with 21 legal moves the move
ordering is not result-neutral.  In `c2WideTree` the best move (static
value 1000) is enumerated first by the rules engine but carries the lowest
ordering score, so `orderMoves` sorts it last and the `searchWidth = 20`
cap drops it: the ordered search returns score 0 and a capture line, the
enumeration-order search returns score 1000 and the quiet move. -/
theorem c2_ordering_changes_result :
    (minimax true 7 c2WideTree .negInf .posInf true []).2 = Score.val 0 ∧
    (minimax false 7 c2WideTree .negInf .posInf true []).2 = Score.val 1000 ∧
    (minimax true 7 c2WideTree .negInf .posInf true []).1
      ≠ (minimax false 7 c2WideTree .negInf .posInf true []).1 := by
  refine ⟨by decide, by decide, by decide⟩

end CTH
